import Mathlib

/-!
Shallow embedding of the core of the `my-own-os` kernel:
the page-frame bitmap allocator with per-region ownership tracking and the
security-gated access validator (`src/memory_management.c`,
`iso/src/memory_management_optimized.c`), and the cooperative multi-CPU
scheduler (`src/scalability.h`).

Modelling conventions:
* machine integers are `Nat` (addresses, sizes) or `Int` (C `int` counters);
  addresses and sizes are 32-bit in the source, and the one place where C
  arithmetic can actually wrap (the overflow guard in
  `validate_memory_access`) is modelled with an explicit `% 2^32`;
* the page bitmap is a function `Nat → Bool` (one bit per frame);
* the fixed-capacity region table `memory_regions[0..region_count)` is the
  list of its live entries, the circular run queue
  `sc_run_queue[head..tail)` is the list of its entries in pop order
  (its capacity bound `SC_MAX_THREADS - 1` is kept explicit in `push_rq`);
* C functions returning `bool` plus an out-of-band mutation return `Option`;
  `validate_memory_access` returns `Except` carrying the violation category
  that the C code reports via `log_memory_security_event`;
* a thread's entry closure (a C function pointer whose only interactions
  with the scheduler are calling `yield` / `complete_current_thread` or
  returning) is abstracted as a script `Nat → SliceAct` giving the action
  performed on the n-th invocation, together with a private invocation
  counter `steps` standing for the closure's captured state.
-/

namespace OS

/-! ### Constants from memory_management.c -/

def PAGE_SIZE : Nat := 4096
def KERNEL_END : Nat := 0x100000
def PHYS_MEMORY_END : Nat := 0x1000000
def BITMAP_SIZE : Nat := PHYS_MEMORY_END / PAGE_SIZE / 8
def MAX_MEMORY_REGIONS : Nat := 1024
def totalPages : Nat := PHYS_MEMORY_END / PAGE_SIZE
def kernelPages : Nat := (KERNEL_END + PAGE_SIZE - 1) / PAGE_SIZE
def U32 : Nat := 2 ^ 32

def MEM_PROT_NONE : Nat := 0
def MEM_PROT_READ : Nat := 1
def MEM_PROT_WRITE : Nat := 2
def MEM_PROT_EXECUTE : Nat := 4

/-! ### Data model: regions and allocator state -/

/-- `memory_region_t` from security.h.  The `owner` field (`user_t*`,
nullable) is modelled as an optional abstract user identifier. -/
structure memory_region_t where
  base_address : Nat
  size : Nat
  protection : Nat
  owner : Option Nat
  is_allocated : Bool
deriving DecidableEq, Repr

/-- The file-scope mutable state of memory_management.c. -/
structure MMState where
  page_bitmap : Nat → Bool
  next_free_page : Nat
  memory_regions : List memory_region_t
  memory_protection_enabled : Bool

/-- Violation categories reported by `log_memory_security_event` on the
rejection paths of `validate_memory_access`. -/
inductive MemViolation where
  | INVALID_ACCESS
  | ADDRESS_OVERFLOW
  | OUT_OF_BOUNDS
  | MISALIGNED_ACCESS
  | PERMISSION_DENIED
  | WRONG_OWNER
  | UNREGISTERED_REGION
deriving DecidableEq, Repr

/-- The region loop of `validate_memory_access`: the first region whose
`[base, base+size)` contains `[start, end)` decides the outcome (permission
check, then ownership check); if no region covers the range the access is
denied as `UNREGISTERED_REGION`. -/
def region_check (current_user : Option Nat) (start_addr end_addr access_type : Nat) :
    List memory_region_t → Except MemViolation Unit
  | [] => .error .UNREGISTERED_REGION
  | r :: rs =>
    if r.base_address ≤ start_addr ∧ end_addr ≤ r.base_address + r.size then
      if r.protection &&& access_type = 0 then .error .PERMISSION_DENIED
      else if r.owner ≠ none ∧ r.owner ≠ current_user then .error .WRONG_OWNER
      else .ok ()
    else region_check current_user start_addr end_addr access_type rs

/-- `validate_memory_access` from memory_management.c.  `current_user` is
the value of `security_get_current_user()` (NULL modelled as `none`). -/
def validate_memory_access (st : MMState) (current_user : Option Nat)
    (address size access_type : Nat) : Except MemViolation Unit :=
  if !st.memory_protection_enabled then .ok ()
  else if address = 0 ∨ size = 0 then .error .INVALID_ACCESS
  else if (address + size) % U32 < address then .error .ADDRESS_OVERFLOW
  else if address < KERNEL_END ∨ PHYS_MEMORY_END < address + size then .error .OUT_OF_BOUNDS
  else if address % PAGE_SIZE ≠ 0 then .error .MISALIGNED_ACCESS
  else region_check current_user address (address + size) access_type st.memory_regions

/-- The boolean result the C function actually returns. -/
def validate_ok (st : MMState) (current_user : Option Nat)
    (address size access_type : Nat) : Bool :=
  match validate_memory_access st current_user address size access_type with
  | .ok _ => true
  | .error _ => false

/-- `register_memory_region`: appends a record unless the fixed-capacity
table is full; `none` models returning false with no mutation. -/
def register_memory_region (rs : List memory_region_t) (address size protection : Nat)
    (owner : Option Nat) : Option (List memory_region_t) :=
  if MAX_MEMORY_REGIONS ≤ rs.length then none
  else some (rs ++ [⟨address, size, protection, owner, true⟩])

/-- `unregister_memory_region`: removes the first record whose base address
matches exactly, compacting the table (the shift preserves order);
`none` models returning false with no mutation. -/
def unregister_memory_region : List memory_region_t → Nat → Option (List memory_region_t)
  | [], _ => none
  | r :: rs, a =>
    if r.base_address = a then some rs
    else match unregister_memory_region rs a with
      | some rs2 => some (r :: rs2)
      | none => none

/-! ### The bitmap scan -/

/-- Body of the scan loop of `find_free_page`: examine `fuel` frames
starting at index `i`, returning the first whose bit is clear. -/
def scan_free (bm : Nat → Bool) : Nat → Nat → Option Nat
  | _, 0 => none
  | i, fuel + 1 => if bm i then scan_free bm (i + 1) fuel else some i

/-- `find_free_page` from memory_management.c: linear scan from the hint
`next_free_page` to the end of the range (no wraparound); on success the
hint advances to `frame + 1`, on failure it is left unchanged and
`(uint32)-1` (modelled `none`) is returned.  The result pairs the frame
with the new hint. -/
def find_free_page (bm : Nat → Bool) (next_free_page : Nat) : Option Nat × Nat :=
  match scan_free bm next_free_page (totalPages - next_free_page) with
  | some i => (some i, i + 1)
  | none => (none, next_free_page)

/-! ### The optimized duplicate (iso/src/memory_management_optimized.c) -/

/-- Byte-wise scan loop of `optimized_find_free_page`: for each of `fuel`
bitmap bytes starting at byte `b`, if the byte is not 0xFF take its lowest
clear bit (`find_first_zero_bit` is `ctz` of the complement, i.e. the least
clear bit index); the `result < total_pages` guard of the source is kept. -/
def scan_bytes (bm : Nat → Bool) : Nat → Nat → Option Nat
  | _, 0 => none
  | b, fuel + 1 =>
    match scan_free bm (8 * b) 8 with
    | some r => if r < totalPages then some r else scan_bytes bm (b + 1) fuel
    | none => scan_bytes bm (b + 1) fuel

/-- `optimized_find_free_page`: scans whole bytes from `hint >> 3` to the
end of the bitmap, then wraps around and scans bytes `0 .. (hint >> 3) - 1`.
Note that within the starting byte it examines bits below the hint's bit
offset, and that unlike `find_free_page` it wraps around. -/
def optimized_find_free_page (bm : Nat → Bool) (hint : Nat) : Option Nat × Nat :=
  let startByte := hint / 8
  match scan_bytes bm startByte (BITMAP_SIZE - startByte) with
  | some r => (some r, r + 1)
  | none =>
    match scan_bytes bm 0 startByte with
    | some r => (some r, r + 1)
    | none => (none, hint)

/-! ### allocate/free -/

/-- `allocate_memory`: requires an authenticated user and `size == PAGE_SIZE`;
finds a free frame, sets its bit, and registers the region (read+write,
owned by the current user).  If registration fails the frame's bit is
cleared again (rollback) and NULL is returned; the hint advanced by the
scan is not rewound on rollback.  Returns the new state and the address. -/
def allocate_memory (st : MMState) (current_user : Option Nat) (size : Nat) :
    MMState × Option Nat :=
  match current_user with
  | none => (st, none)
  | some u =>
    if size ≠ PAGE_SIZE then (st, none)
    else
      match find_free_page st.page_bitmap st.next_free_page with
      | (none, _) => (st, none)
      | (some frame, hint2) =>
        let addr := frame * PAGE_SIZE
        match register_memory_region st.memory_regions addr PAGE_SIZE
            (MEM_PROT_READ ||| MEM_PROT_WRITE) (some u) with
        | none =>
          ({ st with
              page_bitmap := fun i => if i = frame then false else st.page_bitmap i,
              next_free_page := hint2 }, none)
        | some rs2 =>
          ({ st with
              page_bitmap := fun i => if i = frame then true else st.page_bitmap i,
              next_free_page := hint2,
              memory_regions := rs2 }, some addr)

/-- `free_memory`: rejects NULL, then requires `validate_memory_access`
(for a page-sized write) and an authenticated user; on success clears the
frame's bit, rewinds the hint if the frame precedes it, and unregisters
the region.  Every rejection leaves the state unchanged. -/
def free_memory (st : MMState) (current_user : Option Nat) (ptr : Nat) : MMState :=
  if ptr = 0 then st
  else if validate_ok st current_user ptr PAGE_SIZE MEM_PROT_WRITE = false then st
  else
    match current_user with
    | none => st
    | some _ =>
      let frame := ptr / PAGE_SIZE
      if frame < totalPages then
        let st2 : MMState :=
          { st with
              page_bitmap := fun i => if i = frame then false else st.page_bitmap i,
              next_free_page :=
                if frame < st.next_free_page then frame else st.next_free_page }
        match unregister_memory_region st2.memory_regions ptr with
        | some rs2 => { st2 with memory_regions := rs2 }
        | none => st2
      else st

/-- The kernel region registered by `init_memory_management`. -/
def kernelRegion : memory_region_t :=
  ⟨0, KERNEL_END, MEM_PROT_READ ||| MEM_PROT_WRITE ||| MEM_PROT_EXECUTE, none, true⟩

/-- `init_memory_management`: kernel frames pre-marked used, hint at the
first frame above the kernel, kernel region registered, protection on. -/
def init_memory_management : MMState :=
  { page_bitmap := fun i => decide (i < kernelPages)
  , next_free_page := kernelPages
  , memory_regions := [kernelRegion]
  , memory_protection_enabled := true }

/-! ### Operation sequences over the memory manager -/

/-- One externally reachable memory operation, tagged with the current
principal at the time of the call. -/
inductive MMOp where
  | alloc (current_user : Option Nat) (size : Nat)
  | free (current_user : Option Nat) (ptr : Nat)

def mm_step (st : MMState) : MMOp → MMState
  | .alloc u s => (allocate_memory st u s).1
  | .free u p => free_memory st u p

/-- State after running a sequence of allocate/free calls from boot. -/
def mm_run (ops : List MMOp) : MMState :=
  ops.foldl mm_step init_memory_management

/-- Well-formedness of a user region created by `allocate_memory`. -/
def user_region_wf (r : memory_region_t) : Prop :=
  KERNEL_END ≤ r.base_address ∧ r.base_address + r.size ≤ PHYS_MEMORY_END ∧
  r.size = PAGE_SIZE ∧ r.base_address % PAGE_SIZE = 0 ∧ r.owner ≠ none

/-- The allocator invariant: protection is on, the region table is the
kernel region followed by well-formed user regions with pairwise distinct
bases, and a frame's bit is set exactly when the frame is currently
allocated (a kernel frame, or covered by a live user region). -/
def MMInv (st : MMState) : Prop :=
  st.memory_protection_enabled = true ∧
  (∃ urs, st.memory_regions = kernelRegion :: urs ∧
    (∀ r ∈ urs, user_region_wf r) ∧
    urs.Pairwise (fun a b => a.base_address ≠ b.base_address)) ∧
  (∀ f, f < totalPages →
    (st.page_bitmap f = true ↔ f < kernelPages ∨
      ∃ r ∈ st.memory_regions, r.owner ≠ none ∧ r.base_address = f * PAGE_SIZE))

/-! ### Scheduler (src/scalability.h) -/

def SC_MAX_THREADS : Nat := 64
def SC_MAX_CPUS : Nat := 8

/-- `thread_state_t`. -/
inductive thread_state_t where
  | THREAD_READY
  | THREAD_RUNNING
  | THREAD_BLOCKED
  | THREAD_DONE
deriving DecidableEq, Repr

/-- The scheduler-visible effect of one invocation of a thread's entry
closure: return without scheduler calls (an implicit yield), call `yield`
and return, or call `complete_current_thread` and return. -/
inductive SliceAct where
  | runs
  | yields
  | completes
deriving DecidableEq, Repr

/-- `sc_thread_t`.  `entry`/`steps` model the closure and its captured
state: `entry` gives the action the closure performs on its n-th
invocation and `steps` counts invocations so far (e.g. the `steps[]`
array of the callers). -/
structure sc_thread_t where
  id : Nat
  cpu_id : Nat
  priority : Int
  quota : Nat
  entry : Nat → SliceAct
  steps : Nat
  state : thread_state_t
  ticks : Nat

instance : Inhabited sc_thread_t :=
  ⟨⟨0, 0, 0, 1, fun _ => .runs, 0, .THREAD_READY, 0⟩⟩

/-- The file-scope mutable scheduler state of scalability.h.
`sc_threads` is `sc_threads[0..sc_thread_count)`; `sc_run_queue` the
circular buffer's contents in pop order; `sc_current_thread = -1` is
`none`. -/
structure SchedState where
  sc_threads : List sc_thread_t
  sc_run_queue : List Nat
  sc_cpu_load : Nat → Int
  sc_cpu_count : Nat
  sc_current_thread : Option Nat

/-- `push_rq`: fails (no mutation) when the circular buffer is full,
i.e. already holds `SC_MAX_THREADS - 1` entries. -/
def push_rq (q : List Nat) (id : Nat) : List Nat × Bool :=
  if SC_MAX_THREADS ≤ q.length + 1 then (q, false) else (q ++ [id], true)

/-- `pop_rq`: returns `-1` (modelled `none`) on an empty queue. -/
def pop_rq (q : List Nat) : Option Nat × List Nat :=
  match q with
  | [] => (none, [])
  | x :: xs => (some x, xs)

/-- `init_scheduler`: clamps the CPU count into `[1, SC_MAX_CPUS]` and
resets all scheduler state. -/
def init_scheduler (cpus : Nat) : SchedState :=
  { sc_threads := []
  , sc_run_queue := []
  , sc_cpu_load := fun _ => 0
  , sc_cpu_count := min (max cpus 1) SC_MAX_CPUS
  , sc_current_thread := none }

/-- `get_thread_count`: number of threads not in `THREAD_DONE` state. -/
def get_thread_count (st : SchedState) : Nat :=
  (st.sc_threads.filter (fun t => t.state ≠ .THREAD_DONE)).length

/-- The greedy-minimum loop of `create_thread` (and, with the order
reversed, of `load_balance`): starting from candidate `best`, examine
`fuel` CPUs from index `i`, keeping the first strict improvement. -/
def min_cpu_from (load : Nat → Int) : Nat → Nat → Nat → Nat
  | _, 0, best => best
  | i, fuel + 1, best =>
    min_cpu_from load (i + 1) fuel (if load i < load best then i else best)

def max_cpu_from (load : Nat → Int) : Nat → Nat → Nat → Nat
  | _, 0, best => best
  | i, fuel + 1, best =>
    max_cpu_from load (i + 1) fuel (if load best < load i then i else best)

/-- The CPU `create_thread` picks: least-loaded, ties to the lowest index. -/
def create_best_cpu (st : SchedState) : Nat :=
  min_cpu_from st.sc_cpu_load 1 (st.sc_cpu_count - 1) 0

/-- Update the thread-table entry at index `id` in place. -/
def upd_thread (ts : List sc_thread_t) (id : Nat) (f : sc_thread_t → sc_thread_t) :
    List sc_thread_t :=
  ts.set id (f (ts.getD id default))

/-- `create_thread`: fails on a full table; otherwise records the thread
(`READY`, zero ticks) on the least-loaded CPU, bumps that CPU's load, and
pushes the fresh id — ignoring `push_rq`'s result.  (The C null-entry
check cannot fire here since closures are total values.) -/
def create_thread (st : SchedState) (entry : Nat → SliceAct) (priority : Int) :
    SchedState × Option Nat :=
  if SC_MAX_THREADS ≤ st.sc_threads.length then (st, none)
  else
    let best := create_best_cpu st
    let id := st.sc_threads.length
    let t : sc_thread_t := ⟨id, best, priority, 1, entry, 0, .THREAD_READY, 0⟩
    ({ st with
        sc_threads := st.sc_threads ++ [t],
        sc_run_queue := (push_rq st.sc_run_queue id).1,
        sc_cpu_load := fun c => if c = best then st.sc_cpu_load best + 1 else st.sc_cpu_load c },
     some id)

/-- `yield`: no-op unless a thread is current; otherwise marks it `READY`,
re-enqueues it at the tail (push failure ignored) and clears the current
thread. -/
def yield (st : SchedState) : SchedState :=
  match st.sc_current_thread with
  | none => st
  | some id =>
    { st with
        sc_threads := upd_thread st.sc_threads id (fun t => { t with state := .THREAD_READY }),
        sc_run_queue := (push_rq st.sc_run_queue id).1,
        sc_current_thread := none }

/-- `complete_current_thread`: marks the current thread `DONE`, decrements
its CPU's load counter, clears the current thread. -/
def complete_current_thread (st : SchedState) : SchedState :=
  match st.sc_current_thread with
  | none => st
  | some id =>
    let cpu := (st.sc_threads.getD id default).cpu_id
    { st with
        sc_threads := upd_thread st.sc_threads id (fun t => { t with state := .THREAD_DONE }),
        sc_cpu_load := fun c => if c = cpu then st.sc_cpu_load cpu - 1 else st.sc_cpu_load c,
        sc_current_thread := none }

def lb_min_cpu (st : SchedState) : Nat :=
  min_cpu_from st.sc_cpu_load 1 (st.sc_cpu_count - 1) 0

def lb_max_cpu (st : SchedState) : Nat :=
  max_cpu_from st.sc_cpu_load 1 (st.sc_cpu_count - 1) 0

/-- `load_balance`: find the min- and max-load CPUs (first index wins
ties); if their loads differ by more than 1, migrate the first `READY`
thread assigned to the max CPU to the min CPU, adjusting both counters;
at most one thread moves per call. -/
def load_balance (st : SchedState) : SchedState :=
  let mi := lb_min_cpu st
  let ma := lb_max_cpu st
  if st.sc_cpu_load ma - st.sc_cpu_load mi ≤ 1 then st
  else
    match st.sc_threads.findIdx?
        (fun t => decide (t.state = .THREAD_READY ∧ t.cpu_id = ma)) with
    | none => st
    | some i =>
      { st with
          sc_threads := upd_thread st.sc_threads i (fun t => { t with cpu_id := mi }),
          sc_cpu_load := fun c =>
            if c = ma then st.sc_cpu_load ma - 1
            else if c = mi then st.sc_cpu_load mi + 1
            else st.sc_cpu_load c }

/-- One synchronous invocation of thread `id`'s entry closure: the
closure's private counter advances and the action it performs (nothing,
`yield`, or `complete_current_thread`) is applied to the state. -/
def run_slice (st : SchedState) (id : Nat) : SchedState :=
  let t := st.sc_threads.getD id default
  let st1 : SchedState :=
    { st with sc_threads := upd_thread st.sc_threads id (fun u => { u with steps := u.steps + 1 }) }
  match t.entry t.steps with
  | .runs => st1
  | .yields => yield st1
  | .completes => complete_current_thread st1

/-- The ready-dispatch path of `schedule_process`: mark the popped thread
`RUNNING`, make it current, run one slice, and — unless the closure left
the `RUNNING` state via `yield`/`complete_current_thread` — treat the
slice as an implicit yield: bump `ticks`, set back to `READY`, re-enqueue
at the tail. -/
def run_ready (st0 : SchedState) (id : Nat) : SchedState :=
  let st1 : SchedState :=
    { st0 with
        sc_threads := upd_thread st0.sc_threads id (fun t => { t with state := .THREAD_RUNNING }),
        sc_current_thread := some id }
  let st2 := run_slice st1 id
  if st2.sc_current_thread = some id then
    { st2 with
        sc_threads := upd_thread st2.sc_threads id
          (fun t => { t with ticks := t.ticks + 1, state := .THREAD_READY }),
        sc_run_queue := (push_rq st2.sc_run_queue id).1,
        sc_current_thread := none }
  else st2

/-- `schedule_process`: pop one id; if its thread is not `READY` push it
back and return; otherwise dispatch it for one cooperative slice. -/
def schedule_process (st : SchedState) : SchedState :=
  match pop_rq st.sc_run_queue with
  | (none, _) => st
  | (some id, q2) =>
    let st0 : SchedState := { st with sc_run_queue := q2 }
    if (st0.sc_threads.getD id default).state ≠ .THREAD_READY then
      { st0 with sc_run_queue := (push_rq st0.sc_run_queue id).1 }
    else run_ready st0 id

/-- Drive `schedule_process` in a loop until `get_thread_count() == 0`,
with explicit fuel. -/
def run_sched : Nat → SchedState → SchedState
  | 0, st => st
  | n + 1, st =>
    if get_thread_count st = 0 then st else run_sched n (schedule_process st)

/-- The closure of a thread that needs exactly `M` cooperative slices:
it returns (implicit yield) on invocations `0 .. M-2` and calls
`complete_current_thread` on invocation `M-1` (its M-th slice). -/
def demo_script (M : Nat) : Nat → SliceAct :=
  fun k => if M - 1 ≤ k then .completes else .runs

/-- `init_scheduler(C)` followed by creating `T` equal-target threads. -/
def mk_demo (C T M : Nat) : SchedState :=
  (List.range T).foldl (fun st _ => (create_thread st (demo_script M) 1).1)
    (init_scheduler C)

/-! ## Scan lemmas -/

theorem scan_free_eq_none (bm : Nat → Bool) (i fuel : Nat)
    (h : ∀ k, i ≤ k → k < i + fuel → bm k = true) :
    scan_free bm i fuel = none := by
  induction fuel generalizing i with
  | zero => rfl
  | succ n ih =>
    have hi : bm i = true := h i le_rfl (by omega)
    simp only [scan_free, hi, if_true]
    exact ih (i + 1) fun k hk1 hk2 => h k (by omega) (by omega)

theorem scan_free_eq_some (bm : Nat → Bool) (i fuel t : Nat)
    (ht1 : i ≤ t) (ht2 : t < i + fuel) (ht3 : bm t = false)
    (hmin : ∀ k, i ≤ k → k < t → bm k = true) :
    scan_free bm i fuel = some t := by
  induction fuel generalizing i with
  | zero => omega
  | succ n ih =>
    by_cases hit : i = t
    · subst hit
      simp only [scan_free, ht3]
      simp
    · have hbi : bm i = true := hmin i le_rfl (by omega)
      simp only [scan_free, hbi, if_true]
      exact ih (i + 1) (by omega) (by omega) fun k hk1 hk2 => hmin k (by omega) hk2

theorem scan_free_some_spec (bm : Nat → Bool) (i fuel t : Nat)
    (h : scan_free bm i fuel = some t) :
    i ≤ t ∧ t < i + fuel ∧ bm t = false ∧ ∀ k, i ≤ k → k < t → bm k = true := by
  induction fuel generalizing i with
  | zero => simp [scan_free] at h
  | succ n ih =>
    simp only [scan_free] at h
    by_cases hbi : bm i = true
    · simp only [hbi, if_true] at h
      obtain ⟨h1, h2, h3, h4⟩ := ih (i + 1) h
      refine ⟨by omega, by omega, h3, fun k hk1 hk2 => ?_⟩
      by_cases hki : k = i
      · exact hki ▸ hbi
      · exact h4 k (by omega) hk2
    · simp only [Bool.not_eq_true] at hbi
      simp only [hbi, Bool.false_eq_true, if_false, Option.some.injEq] at h
      subst h
      exact ⟨le_rfl, by omega, hbi, fun k hk1 hk2 => by omega⟩

theorem scan_free_none_spec (bm : Nat → Bool) (i fuel : Nat)
    (h : scan_free bm i fuel = none) :
    ∀ k, i ≤ k → k < i + fuel → bm k = true := by
  induction fuel generalizing i with
  | zero => omega
  | succ n ih =>
    intro k hk1 hk2
    simp only [scan_free] at h
    by_cases hbi : bm i = true
    · simp only [hbi, if_true] at h
      by_cases hki : k = i
      · exact hki ▸ hbi
      · exact ih (i + 1) h k (by omega) (by omega)
    · simp only [Bool.not_eq_true] at hbi
      simp [hbi] at h

/-- `find_free_page` returns the least clear frame at or above the hint. -/
theorem find_free_page_eq_some (bm : Nat → Bool) (hint t : Nat)
    (ht1 : hint ≤ t) (ht2 : t < totalPages) (ht3 : bm t = false)
    (hmin : ∀ j, hint ≤ j → j < t → bm j = true) :
    find_free_page bm hint = (some t, t + 1) := by
  unfold find_free_page
  rw [scan_free_eq_some bm hint (totalPages - hint) t ht1 (by omega) ht3 hmin]

theorem find_free_page_eq_none (bm : Nat → Bool) (hint : Nat)
    (h : ∀ j, hint ≤ j → j < totalPages → bm j = true) :
    find_free_page bm hint = (none, hint) := by
  unfold find_free_page
  rw [scan_free_eq_none bm hint (totalPages - hint)
    (fun k hk1 hk2 => h k hk1 (by omega))]

theorem find_free_page_some_spec (bm : Nat → Bool) (hint t h2 : Nat)
    (h : find_free_page bm hint = (some t, h2)) :
    hint ≤ t ∧ t < totalPages ∧ bm t = false ∧ h2 = t + 1 ∧
      ∀ k, hint ≤ k → k < t → bm k = true := by
  unfold find_free_page at h
  cases hs : scan_free bm hint (totalPages - hint) with
  | none => rw [hs] at h; simp at h
  | some u =>
    rw [hs] at h
    simp only [Prod.mk.injEq, Option.some.injEq] at h
    have h5 : u = t := h.1
    have h6 : u + 1 = h2 := h.2
    subst h5
    obtain ⟨h1, h2a, h3, h4⟩ := scan_free_some_spec bm hint _ u hs
    exact ⟨h1, by omega, h3, h6.symm, h4⟩

/-! ## C2: the hint scan does not wrap around -/

/-- Bitmap with only frame 0 clear. -/
def bm_only_zero : Nat → Bool := fun i => decide (0 < i)

/-- C2 counterexample: with every frame except frame 0 set and the hint at
1, a clear frame (frame 0) exists below the hint, yet `find_free_page`
reports out-of-memory and leaves the hint unchanged — there is no
wraparound scan. -/
theorem claim_C2_cex :
    find_free_page bm_only_zero 1 = (none, 1) ∧ bm_only_zero 0 = false ∧
      0 < totalPages := by
  refine ⟨?_, by decide, by decide⟩
  exact find_free_page_eq_none _ _ fun j hj _ => by
    simp [bm_only_zero]; omega

/-- C2 amended: `find_free_page` scans from the hint to the end of the
range without wrapping around; it returns the first clear frame at or
above the hint (advancing the hint to frame+1), and reports out-of-memory
exactly when every frame at or above the hint is set — even when a clear
frame exists below the hint. -/
theorem claim_C2 :
    (∀ (bm : Nat → Bool) (hint t : Nat), hint ≤ t → t < totalPages →
      bm t = false → (∀ j, hint ≤ j → j < t → bm j = true) →
      find_free_page bm hint = (some t, t + 1)) ∧
    (∀ (bm : Nat → Bool) (hint : Nat),
      (∀ j, hint ≤ j → j < totalPages → bm j = true) →
      find_free_page bm hint = (none, hint)) := by
  exact ⟨find_free_page_eq_some, find_free_page_eq_none⟩

/-- Witness for C2 at a concrete input: on the all-clear bitmap with hint
0, the scan returns frame 0 and advances the hint to 1. -/
theorem claim_C2_witness :
    find_free_page (fun _ => false) 0 = (some 0, 1) := by
  exact claim_C2.1 (fun _ => false) 0 0 le_rfl (by decide) rfl (fun j h1 h2 => by omega)

/-! ## C9: the "optimized" duplicate scanner -/

theorem scan_bytes_eq_none (bm : Nat → Bool) (b fuel : Nat)
    (h : ∀ k, 8 * b ≤ k → k < 8 * (b + fuel) → bm k = true) :
    scan_bytes bm b fuel = none := by
  induction fuel generalizing b with
  | zero => rfl
  | succ n ih =>
    simp only [scan_bytes]
    rw [scan_free_eq_none bm (8 * b) 8 (fun k hk1 hk2 => h k hk1 (by omega))]
    exact ih (b + 1) fun k hk1 hk2 => h k (by omega) (by omega)

theorem scan_bytes_eq_some (bm : Nat → Bool) (b fuel t : Nat)
    (h1 : 8 * b ≤ t) (h2 : t < 8 * (b + fuel)) (h3 : bm t = false)
    (h4 : t < totalPages)
    (hmin : ∀ k, 8 * b ≤ k → k < t → bm k = true) :
    scan_bytes bm b fuel = some t := by
  induction fuel generalizing b with
  | zero => omega
  | succ n ih =>
    simp only [scan_bytes]
    by_cases hb : t < 8 * b + 8
    · rw [scan_free_eq_some bm (8 * b) 8 t h1 (by omega) h3
        (fun k hk1 hk2 => hmin k hk1 hk2)]
      simp [h4]
    · rw [scan_free_eq_none bm (8 * b) 8
        (fun k hk1 hk2 => hmin k hk1 (by omega))]
      exact ih (b + 1) (by omega) (by omega) fun k hk1 hk2 => hmin k (by omega) hk2

/-- C9 counterexample: with only frame 0 clear and the hint at 1, the
basic scanner reports out-of-memory while the "optimized" one returns
frame 0 — it examines the hint's byte from bit 0 and wraps around, so the
two do not implement the same contract. -/
theorem claim_C9_cex :
    optimized_find_free_page bm_only_zero 1 = (some 0, 1) ∧
      find_free_page bm_only_zero 1 = (none, 1) := by
  constructor
  · rfl
  · exact find_free_page_eq_none _ _ fun j hj _ => by
      simp [bm_only_zero]; omega

/-- C9 amended: the two scanners agree (same frame, same final hint)
whenever the hint is byte-aligned and some frame at or above the hint is
clear; in general they differ (`claim_C9_cex`): `optimized_find_free_page`
scans the hint's byte from bit 0 and wraps around to the start, while
`find_free_page` never looks below the hint. -/
theorem claim_C9 (bm : Nat → Bool) (hint t : Nat) (hal : hint % 8 = 0)
    (h1 : hint ≤ t) (h2 : t < totalPages) (h3 : bm t = false)
    (hmin : ∀ j, hint ≤ j → j < t → bm j = true) :
    optimized_find_free_page bm hint = find_free_page bm hint := by
  have htp : totalPages = 4096 := by decide
  have hbs : BITMAP_SIZE = 512 := by decide
  have hh8 : 8 * (hint / 8) = hint := by omega
  have hhlt : hint / 8 ≤ 512 := by omega
  rw [find_free_page_eq_some bm hint t h1 h2 h3 hmin]
  have hsb : scan_bytes bm (hint / 8) (BITMAP_SIZE - hint / 8) = some t := by
    rw [hbs]
    exact scan_bytes_eq_some bm (hint / 8) (512 - hint / 8) t (by omega)
      (by omega) h3 h2 (fun k hk1 hk2 => hmin k (by omega) hk2)
  simp [optimized_find_free_page, hsb]

/-- Witness for C9: with all frames clear and hint 0, the two scanners
agree. -/
theorem claim_C9_witness :
    optimized_find_free_page (fun _ => false) 0 = find_free_page (fun _ => false) 0 := by
  exact claim_C9 (fun _ => false) 0 0 rfl le_rfl (by decide) rfl
    (fun j h1 h2 => by omega)

/-! ## C3: rollback when the region registry is full -/

/-- C3: with a current principal and the region registry at capacity,
`allocate(PAGE_SIZE)` returns null, the bitmap is exactly as before the
call (the frame set by the scan is rolled back), the registry contents
are unchanged, and the frame the scan found is clear again afterwards
(no frame is left marked allocated that was not allocated before). -/
theorem claim_C3 (st : MMState) (u : Nat)
    (hfull : st.memory_regions.length = MAX_MEMORY_REGIONS) :
    (allocate_memory st (some u) PAGE_SIZE).2 = none ∧
    (∀ i, (allocate_memory st (some u) PAGE_SIZE).1.page_bitmap i = st.page_bitmap i) ∧
    (allocate_memory st (some u) PAGE_SIZE).1.memory_regions = st.memory_regions ∧
    (∀ frame, (find_free_page st.page_bitmap st.next_free_page).1 = some frame →
      (allocate_memory st (some u) PAGE_SIZE).1.page_bitmap frame = false ∧
      st.page_bitmap frame = false) := by
  have hreg : ∀ a s p o, register_memory_region st.memory_regions a s p o = none := by
    intro a s p o
    simp [register_memory_region, hfull]
  cases hf : find_free_page st.page_bitmap st.next_free_page with
  | mk o hint2 =>
    cases o with
    | none =>
      have halloc : allocate_memory st (some u) PAGE_SIZE = (st, none) := by
        simp [allocate_memory, hf]
      rw [halloc]
      refine ⟨rfl, fun i => rfl, rfl, fun frame hfr => ?_⟩
      simp at hfr
    | some f =>
      obtain ⟨hs1, hs2, hs3, hs4, hs5⟩ := find_free_page_some_spec _ _ _ _ hf
      have halloc : allocate_memory st (some u) PAGE_SIZE =
          ({ st with
              page_bitmap := fun i => if i = f then false else st.page_bitmap i,
              next_free_page := hint2 }, none) := by
        simp [allocate_memory, hf, hreg]
      rw [halloc]
      refine ⟨rfl, fun i => ?_, rfl, fun frame hfr => ?_⟩
      · by_cases hif : i = f
        · subst hif; simpa using hs3.symm
        · simp [hif]
      · have hffr : f = frame := by simpa using hfr
        subst hffr
        simpa using hs3

/-- A state whose region registry is artificially filled to capacity. -/
def fullRegState : MMState :=
  { init_memory_management with
      memory_regions := List.replicate MAX_MEMORY_REGIONS kernelRegion }

/-- Witness for C3 at a concrete full-registry state: the allocation
fails and the frame the scan found (frame 256) is clear again. -/
theorem claim_C3_witness :
    (allocate_memory fullRegState (some 1) PAGE_SIZE).2 = none ∧
    (allocate_memory fullRegState (some 1) PAGE_SIZE).1.page_bitmap 256 = false := by
  have hfull : fullRegState.memory_regions.length = MAX_MEMORY_REGIONS := by
    simp [fullRegState]
  refine ⟨(claim_C3 fullRegState 1 hfull).1, ?_⟩
  exact ((claim_C3 fullRegState 1 hfull).2.2.2 256 rfl).1

/-! ## C1: the access validator -/

theorem region_check_ok_spec (cu : Option Nat) (s e acc : Nat)
    (rs : List memory_region_t) (h : region_check cu s e acc rs = .ok ()) :
    ∃ r ∈ rs, (r.base_address ≤ s ∧ e ≤ r.base_address + r.size) ∧
      r.protection &&& acc ≠ 0 ∧ (r.owner = none ∨ r.owner = cu) := by
  induction rs with
  | nil => simp [region_check] at h
  | cons hd tl ih =>
    simp only [region_check] at h
    by_cases hc : hd.base_address ≤ s ∧ e ≤ hd.base_address + hd.size
    · rw [if_pos hc] at h
      by_cases hp : hd.protection &&& acc = 0
      · simp [hp] at h
      · rw [if_neg hp] at h
        by_cases ho : hd.owner ≠ none ∧ hd.owner ≠ cu
        · simp [ho] at h
        · refine ⟨hd, List.mem_cons_self hd tl, hc, hp, ?_⟩
          by_cases hn : hd.owner = none
          · exact Or.inl hn
          · right
            by_contra hcu
            exact ho ⟨hn, hcu⟩
    · rw [if_neg hc] at h
      obtain ⟨r, hr, hrest⟩ := ih h
      exact ⟨r, List.mem_cons_of_mem hd hr, hrest⟩

/-- With pairwise-disjoint regions, the first covering region is the only
one, and it decides the outcome of the region loop. -/
theorem region_check_of_covering (cu : Option Nat) (s e acc : Nat)
    (rs : List memory_region_t) (r : memory_region_t)
    (hdisj : rs.Pairwise (fun a b =>
      a.base_address + a.size ≤ b.base_address ∨ b.base_address + b.size ≤ a.base_address))
    (hse : s < e) (hr : r ∈ rs)
    (hc : r.base_address ≤ s ∧ e ≤ r.base_address + r.size) :
    region_check cu s e acc rs =
      (if r.protection &&& acc = 0 then .error .PERMISSION_DENIED
       else if r.owner ≠ none ∧ r.owner ≠ cu then .error .WRONG_OWNER
       else .ok ()) := by
  induction rs with
  | nil => cases hr
  | cons hd tl ih =>
    rcases List.mem_cons.mp hr with hhd | htl
    · subst hhd
      simp only [region_check, if_pos hc]
    · have hdisj2 := (List.pairwise_cons.mp hdisj).2
      have hhdr := (List.pairwise_cons.mp hdisj).1 r htl
      have hnc : ¬(hd.base_address ≤ s ∧ e ≤ hd.base_address + hd.size) := by
        rintro ⟨ha, hb⟩
        rcases hhdr with hx | hx
        · omega
        · omega
      simp only [region_check, if_neg hnc]
      exact ih hdisj2 htl

theorem single_bit_and (p acc : Nat) (h : acc = 1 ∨ acc = 2 ∨ acc = 4) :
    (p &&& acc ≠ 0) ↔ acc &&& p = acc := by
  have hpow : ∃ i, acc = 2 ^ i := by
    rcases h with rfl | rfl | rfl
    · exact ⟨0, rfl⟩
    · exact ⟨1, rfl⟩
    · exact ⟨2, rfl⟩
  obtain ⟨i, rfl⟩ := hpow
  rw [Nat.and_two_pow, Nat.two_pow_and]
  have hne : (2 : Nat) ^ i ≠ 0 := pow_ne_zero i two_ne_zero
  cases hpb : p.testBit i <;> simp [hne, eq_comm]
  exact fun hc => hne hc.symm

/-- Reduce `validate_memory_access` to the region loop once all the
arithmetic guards pass. -/
theorem validate_eq_region_check (st : MMState) (cu : Option Nat) (a s acc : Nat)
    (hen : st.memory_protection_enabled = true)
    (h1 : a ≠ 0) (h2 : s ≠ 0) (h3 : ¬((a + s) % U32 < a))
    (h4 : KERNEL_END ≤ a) (h5 : a + s ≤ PHYS_MEMORY_END) (h6 : a % PAGE_SIZE = 0) :
    validate_memory_access st cu a s acc =
      region_check cu a (a + s) acc st.memory_regions := by
  simp only [validate_memory_access, hen, Bool.not_true, Bool.false_eq_true, if_false]
  rw [if_neg (by tauto), if_neg h3, if_neg (by omega), if_neg (by simp [h6])]

/-- Elimination form: a passing validation implies every guard passed and
a covering region granted the access. -/
theorem validate_ok_spec (st : MMState) (cu : Option Nat) (a s acc : Nat)
    (hen : st.memory_protection_enabled = true)
    (h : validate_memory_access st cu a s acc = .ok ()) :
    a ≠ 0 ∧ s ≠ 0 ∧ ¬((a + s) % U32 < a) ∧ KERNEL_END ≤ a ∧
      a + s ≤ PHYS_MEMORY_END ∧ a % PAGE_SIZE = 0 ∧
      ∃ r ∈ st.memory_regions, (r.base_address ≤ a ∧ a + s ≤ r.base_address + r.size) ∧
        r.protection &&& acc ≠ 0 ∧ (r.owner = none ∨ r.owner = cu) := by
  simp only [validate_memory_access, hen, Bool.not_true, Bool.false_eq_true, if_false] at h
  split_ifs at h with hg1 hg2 hg3 hg4
  push_neg at hg1
  push_neg at hg3
  refine ⟨hg1.1, hg1.2, hg2, hg3.1, hg3.2, by omega, ?_⟩
  exact region_check_ok_spec cu a (a + s) acc st.memory_regions h

theorem PAGE_SIZE_eq : PAGE_SIZE = 4096 := rfl
theorem KERNEL_END_eq : KERNEL_END = 1048576 := rfl
theorem PHYS_MEMORY_END_eq : PHYS_MEMORY_END = 16777216 := rfl
theorem totalPages_eq : totalPages = 4096 := rfl
theorem kernelPages_eq : kernelPages = 256 := by decide
theorem U32_eq : U32 = 4294967296 := by norm_num [U32]
theorem MAX_MEMORY_REGIONS_eq : MAX_MEMORY_REGIONS = 1024 := rfl

theorem validate_ok_iff (st : MMState) (cu : Option Nat) (a s acc : Nat) :
    validate_ok st cu a s acc = true ↔
      validate_memory_access st cu a s acc = .ok () := by
  unfold validate_ok
  cases hv : validate_memory_access st cu a s acc with
  | ok u => cases u; simp
  | error e => simp

/-- C1: with protection enabled (and the registry's regions pairwise
disjoint, as they are by construction), `validate_memory_access` approves
an access exactly when: the address is non-null and the size non-zero,
`address + size` does not wrap in 32 bits, the range lies in the
user-accessible window `[KERNEL_END, PHYS_MEMORY_END]` and is
frame-aligned, and some registered region fully contains the range,
grants the requested (single-flag) permission, and is kernel-owned or
owned by the current principal.  In particular a write access (hence a
free) on a region owned by a different principal is rejected with the
WRONG_OWNER category. -/
theorem claim_C1 (st : MMState) (cu : Option Nat)
    (hen : st.memory_protection_enabled = true)
    (hdisj : st.memory_regions.Pairwise (fun a b =>
      a.base_address + a.size ≤ b.base_address ∨
      b.base_address + b.size ≤ a.base_address)) :
    (∀ address size acc,
      acc = MEM_PROT_READ ∨ acc = MEM_PROT_WRITE ∨ acc = MEM_PROT_EXECUTE →
      (validate_ok st cu address size acc = true ↔
        (address ≠ 0 ∧ size ≠ 0 ∧ ¬((address + size) % U32 < address) ∧
          KERNEL_END ≤ address ∧ address + size ≤ PHYS_MEMORY_END ∧
          address % PAGE_SIZE = 0 ∧
          ∃ r ∈ st.memory_regions,
            (r.base_address ≤ address ∧ address + size ≤ r.base_address + r.size) ∧
            acc &&& r.protection = acc ∧ (r.owner = none ∨ r.owner = cu)))) ∧
    (∀ r b a, r ∈ st.memory_regions → r.owner = some b → cu = some a → a ≠ b →
      0 < r.size → KERNEL_END ≤ r.base_address →
      r.base_address + r.size ≤ PHYS_MEMORY_END → r.base_address % PAGE_SIZE = 0 →
      MEM_PROT_WRITE &&& r.protection ≠ 0 →
      validate_memory_access st cu r.base_address r.size MEM_PROT_WRITE =
        .error .WRONG_OWNER) := by
  constructor
  · intro address size acc hacc
    have hacc124 : acc = 1 ∨ acc = 2 ∨ acc = 4 := by
      simpa [MEM_PROT_READ, MEM_PROT_WRITE, MEM_PROT_EXECUTE] using hacc
    rw [validate_ok_iff]
    constructor
    · intro h
      obtain ⟨h1, h2, h3, h4, h5, h6, r, hr, hcov, hp, ho⟩ :=
        validate_ok_spec st cu address size acc hen h
      exact ⟨h1, h2, h3, h4, h5, h6, r, hr, hcov,
        (single_bit_and r.protection acc hacc124).mp hp, ho⟩
    · rintro ⟨h1, h2, h3, h4, h5, h6, r, hr, hcov, hsub, ho⟩
      rw [validate_eq_region_check st cu address size acc hen h1 h2 h3 h4 h5 h6]
      rw [region_check_of_covering cu address (address + size) acc _ r hdisj
        (by omega) hr hcov]
      have hp : r.protection &&& acc ≠ 0 := (single_bit_and _ _ hacc124).mpr hsub
      have how : ¬(r.owner ≠ none ∧ r.owner ≠ cu) := by
        rcases ho with h | h <;> simp [h]
      rw [if_neg hp, if_neg how]
  · intro r b a hr hro hcu hab hsz hkb hpb hal hw
    have hK : KERNEL_END = 1048576 := KERNEL_END_eq
    have hP : PHYS_MEMORY_END = 16777216 := PHYS_MEMORY_END_eq
    have hU : U32 = 4294967296 := U32_eq
    have h1 : r.base_address ≠ 0 := by omega
    have h3 : ¬((r.base_address + r.size) % U32 < r.base_address) := by
      rw [Nat.mod_eq_of_lt (by omega)]
      omega
    rw [validate_eq_region_check st cu r.base_address r.size MEM_PROT_WRITE hen
      h1 (by omega) h3 hkb hpb hal]
    rw [region_check_of_covering cu r.base_address (r.base_address + r.size)
      MEM_PROT_WRITE _ r hdisj (by omega) hr ⟨le_rfl, le_rfl⟩]
    have hp : ¬(r.protection &&& MEM_PROT_WRITE = 0) := by
      rw [Nat.land_comm]
      exact hw
    rw [if_neg hp, if_pos]
    refine ⟨by simp [hro], ?_⟩
    rw [hro, hcu]
    simp only [ne_eq, Option.some.injEq]
    exact fun h => hab h.symm

/-- A registry with the kernel region and one page owned by principal 1. -/
def demoUserRegion : memory_region_t := ⟨1048576, 4096, 3, some 1, true⟩

def demoMM : MMState :=
  { page_bitmap := fun i => decide (i < 256)
  , next_free_page := 257
  , memory_regions := [kernelRegion, demoUserRegion]
  , memory_protection_enabled := true }

/-- Witness for C1: principal 2's write access to principal 1's page is
rejected with the WRONG_OWNER category. -/
theorem claim_C1_witness :
    validate_memory_access demoMM (some 2) 1048576 4096 MEM_PROT_WRITE =
      .error .WRONG_OWNER := by
  have hdisj : demoMM.memory_regions.Pairwise (fun a b =>
      a.base_address + a.size ≤ b.base_address ∨
      b.base_address + b.size ≤ a.base_address) := by
    simp only [demoMM, List.pairwise_cons]
    refine ⟨?_, by simp⟩
    intro b hb
    simp only [List.mem_singleton] at hb
    subst hb
    left
    decide
  exact (claim_C1 demoMM (some 2) rfl hdisj).2 demoUserRegion 1 2
    (by simp [demoMM]) rfl rfl (by decide) (by decide) (by decide) (by decide)
    (by decide) (by decide)

/-! ## C7: the bitmap invariant -/

theorem unregister_some_of_mem (rs : List memory_region_t) (a : Nat)
    (h : ∃ r ∈ rs, r.base_address = a) :
    ∃ l1 r l2, rs = l1 ++ r :: l2 ∧ r.base_address = a ∧
      (∀ x ∈ l1, x.base_address ≠ a) ∧
      unregister_memory_region rs a = some (l1 ++ l2) := by
  induction rs with
  | nil => simp at h
  | cons hd tl ih =>
    by_cases hhd : hd.base_address = a
    · exact ⟨[], hd, tl, rfl, hhd, by simp, by simp [unregister_memory_region, hhd]⟩
    · have h2 : ∃ r ∈ tl, r.base_address = a := by
        obtain ⟨r, hr, hra⟩ := h
        rcases List.mem_cons.mp hr with hre | htl
        · exact absurd (hre ▸ hra) hhd
        · exact ⟨r, htl, hra⟩
      obtain ⟨l1, r, l2, hdec, hra, hl1, hun⟩ := ih h2
      refine ⟨hd :: l1, r, l2, by simp [hdec], hra, ?_, ?_⟩
      · intro x hx
        rcases List.mem_cons.mp hx with hxe | hx2
        · exact hxe ▸ hhd
        · exact hl1 x hx2
      · simp [unregister_memory_region, hhd, hun]

theorem MMInv_init : MMInv init_memory_management := by
  refine ⟨rfl, ⟨[], rfl, by simp, List.Pairwise.nil⟩, ?_⟩
  intro f hf
  simp [init_memory_management, kernelRegion]

theorem MMInv_alloc (st : MMState) (cu : Option Nat) (sz : Nat)
    (hinv : MMInv st) : MMInv (allocate_memory st cu sz).1 := by
  obtain ⟨hen, ⟨urs, hurs, hwf, hdist⟩, hbit⟩ := hinv
  cases cu with
  | none => exact ⟨hen, ⟨urs, hurs, hwf, hdist⟩, hbit⟩
  | some u =>
    by_cases hsz : sz = PAGE_SIZE
    case neg =>
      have : allocate_memory st (some u) sz = (st, none) := by
        simp [allocate_memory, hsz]
      rw [this]
      exact ⟨hen, ⟨urs, hurs, hwf, hdist⟩, hbit⟩
    case pos =>
      subst hsz
      cases hf : find_free_page st.page_bitmap st.next_free_page with
      | mk o hint2 =>
        cases o with
        | none =>
          have : allocate_memory st (some u) PAGE_SIZE = (st, none) := by
            simp [allocate_memory, hf]
          rw [this]
          exact ⟨hen, ⟨urs, hurs, hwf, hdist⟩, hbit⟩
        | some frame =>
          obtain ⟨hs1, hs2, hs3, hs4, hs5⟩ := find_free_page_some_spec _ _ _ _ hf
          -- the frame found is not kernel and carries no live region
          have hframe : ¬(frame < kernelPages ∨
              ∃ r ∈ st.memory_regions, r.owner ≠ none ∧
                r.base_address = frame * PAGE_SIZE) := by
            intro hcontra
            have := (hbit frame hs2).mpr hcontra
            rw [hs3] at this
            exact absurd this (by simp)
          push_neg at hframe
          obtain ⟨hfk, hfr⟩ := hframe
          by_cases hfull : MAX_MEMORY_REGIONS ≤ st.memory_regions.length
          · -- registration fails: rollback, bitmap pointwise unchanged
            have halloc : (allocate_memory st (some u) PAGE_SIZE).1 =
                { st with
                    page_bitmap := fun i => if i = frame then false else st.page_bitmap i,
                    next_free_page := hint2 } := by
              simp [allocate_memory, hf, register_memory_region, hfull]
            rw [halloc]
            refine ⟨hen, ⟨urs, hurs, hwf, hdist⟩, ?_⟩
            intro f hflt
            by_cases hif : f = frame
            · subst hif
              simp only [if_pos rfl]
              constructor
              · intro hft; exact absurd hft (by simp)
              · intro hc
                exact absurd ((hbit f hflt).mpr hc) (by simp [hs3])
            · simp only [if_neg hif]
              exact hbit f hflt
          · -- registration succeeds: new region appended
            push_neg at hfull
            have halloc : (allocate_memory st (some u) PAGE_SIZE).1 =
                { st with
                    page_bitmap := fun i => if i = frame then true else st.page_bitmap i,
                    next_free_page := hint2,
                    memory_regions := st.memory_regions ++
                      [⟨frame * PAGE_SIZE, PAGE_SIZE,
                        MEM_PROT_READ ||| MEM_PROT_WRITE, some u, true⟩] } := by
              simp [allocate_memory, hf, register_memory_region, Nat.not_le.mpr hfull]
            rw [halloc]
            have hfk2 : kernelPages ≤ frame := hfk
            have hKE : KERNEL_END = kernelPages * PAGE_SIZE := by decide
            have hPE : PHYS_MEMORY_END = totalPages * PAGE_SIZE := by decide
            refine ⟨hen, ⟨urs ++
              [⟨frame * PAGE_SIZE, PAGE_SIZE, MEM_PROT_READ ||| MEM_PROT_WRITE,
                some u, true⟩], by simp [hurs], ?_, ?_⟩, ?_⟩
            · intro r hrm
              rcases List.mem_append.mp hrm with hold | hnew
              · exact hwf r hold
              · simp only [List.mem_singleton] at hnew
                subst hnew
                refine ⟨?_, ?_, rfl, by simp [PAGE_SIZE_eq, Nat.mul_mod_left], by simp⟩
                · rw [hKE]
                  exact Nat.mul_le_mul_right PAGE_SIZE hfk2
                · rw [hPE]
                  have : frame + 1 ≤ totalPages := hs2
                  calc frame * PAGE_SIZE + PAGE_SIZE = (frame + 1) * PAGE_SIZE := by ring
                    _ ≤ totalPages * PAGE_SIZE := Nat.mul_le_mul_right PAGE_SIZE this
            · rw [List.pairwise_append]
              refine ⟨hdist, by simp, ?_⟩
              intro x hx y hy
              simp only [List.mem_singleton] at hy
              subst hy
              simp only
              intro hxb
              exact hfr x (by rw [hurs]; exact List.mem_cons_of_mem _ hx)
                ((hwf x hx).2.2.2.2) hxb
            · intro f hflt
              by_cases hif : f = frame
              · subst hif
                refine ⟨fun _ => Or.inr ⟨⟨f * PAGE_SIZE, PAGE_SIZE,
                  MEM_PROT_READ ||| MEM_PROT_WRITE, some u, true⟩,
                  by simp, by simp, rfl⟩, fun _ => by simp⟩
              · simp only [if_neg hif]
                rw [hbit f hflt]
                constructor
                · rintro (hk | ⟨r, hrm, hro, hrb⟩)
                  · exact Or.inl hk
                  · exact Or.inr ⟨r, List.mem_append_left _ hrm, hro, hrb⟩
                · rintro (hk | ⟨r, hrm, hro, hrb⟩)
                  · exact Or.inl hk
                  · rcases List.mem_append.mp hrm with hold | hnew
                    · exact Or.inr ⟨r, hold, hro, hrb⟩
                    · simp only [List.mem_singleton] at hnew
                      subst hnew
                      simp only at hrb
                      have : f = frame := by
                        rw [PAGE_SIZE_eq] at hrb
                        omega
                      exact absurd this hif

theorem MMInv_free (st : MMState) (cu : Option Nat) (ptr : Nat)
    (hinv : MMInv st) : MMInv (free_memory st cu ptr) := by
  obtain ⟨hen, ⟨urs, hurs, hwf, hdist⟩, hbit⟩ := hinv
  by_cases hp0 : ptr = 0
  · simp only [free_memory, if_pos hp0]
    exact ⟨hen, ⟨urs, hurs, hwf, hdist⟩, hbit⟩
  by_cases hval : validate_ok st cu ptr PAGE_SIZE MEM_PROT_WRITE = false
  · simp only [free_memory, if_neg hp0, if_pos hval]
    exact ⟨hen, ⟨urs, hurs, hwf, hdist⟩, hbit⟩
  cases cu with
  | none =>
    simp only [free_memory, if_neg hp0, if_neg hval]
    exact ⟨hen, ⟨urs, hurs, hwf, hdist⟩, hbit⟩
  | some u =>
    -- the validation passed
    have hvok : validate_ok st (some u) ptr PAGE_SIZE MEM_PROT_WRITE = true := by
      revert hval
      cases validate_ok st (some u) ptr PAGE_SIZE MEM_PROT_WRITE <;> simp
    obtain ⟨h1, h2, h3, h4, h5, h6, r, hrm, hcov, hpw, how⟩ :=
      validate_ok_spec st (some u) ptr PAGE_SIZE MEM_PROT_WRITE hen
        ((validate_ok_iff _ _ _ _ _).mp hvok)
    -- the covering region is a user region with base exactly ptr
    have hrurs : r ∈ urs ∧ r.base_address = ptr := by
      rw [hurs] at hrm
      rcases List.mem_cons.mp hrm with hke | hu
      · exfalso
        have hb0 : r.base_address = 0 := by rw [hke]; rfl
        have hsk : r.size = KERNEL_END := by rw [hke]; rfl
        have hc2 := hcov.2
        rw [hb0, hsk, KERNEL_END_eq, PAGE_SIZE_eq] at hc2
        rw [KERNEL_END_eq] at h4
        omega
      · have hsz := (hwf r hu).2.2.1
        refine ⟨hu, ?_⟩
        rw [hsz] at hcov
        omega
    obtain ⟨hru, hrb⟩ := hrurs
    -- frame arithmetic
    have hfa : (ptr / PAGE_SIZE) * PAGE_SIZE = ptr :=
      Nat.div_mul_cancel (Nat.dvd_of_mod_eq_zero h6)
    have hflt : ptr / PAGE_SIZE < totalPages := by
      rw [PHYS_MEMORY_END_eq, PAGE_SIZE_eq] at h5
      rw [totalPages_eq, PAGE_SIZE_eq]
      omega
    -- decompose the registry at the unregistered region
    obtain ⟨l1, rr, l2, hdec, hrra, hl1, hun⟩ :=
      unregister_some_of_mem st.memory_regions ptr ⟨r, hrm, hrb⟩
    -- l1 starts with the kernel region
    have hkne : kernelRegion.base_address ≠ ptr := by
      show (0 : Nat) ≠ ptr
      rw [KERNEL_END_eq] at h4
      omega
    obtain ⟨l1t, hl1t, hurs2⟩ : ∃ l1t, l1 = kernelRegion :: l1t ∧
        urs = l1t ++ rr :: l2 := by
      cases l1 with
      | nil =>
        simp only [List.nil_append] at hdec
        rw [hurs] at hdec
        injection hdec with hh ht
        exact absurd (by rw [← hh] at hrra; exact hrra) hkne
      | cons a l1t =>
        rw [hurs] at hdec
        simp only [List.cons_append, List.cons.injEq] at hdec
        refine ⟨l1t, by rw [hdec.1], hdec.2⟩
    have hrr_urs : rr ∈ urs := by
      rw [hurs2]
      exact List.mem_append_right _ (List.mem_cons_self _ _)
    -- the result state
    have hfree : free_memory st (some u) ptr =
        { st with
            page_bitmap := fun i => if i = ptr / PAGE_SIZE then false else st.page_bitmap i,
            next_free_page :=
              if ptr / PAGE_SIZE < st.next_free_page then ptr / PAGE_SIZE
              else st.next_free_page,
            memory_regions := kernelRegion :: (l1t ++ l2) } := by
      simp only [free_memory, if_neg hp0, if_neg hval, if_pos hflt]
      rw [show ({ st with
          page_bitmap := fun i => if i = ptr / PAGE_SIZE then false else st.page_bitmap i,
          next_free_page :=
            if ptr / PAGE_SIZE < st.next_free_page then ptr / PAGE_SIZE
            else st.next_free_page } : MMState).memory_regions = st.memory_regions from rfl]
      rw [hun, hl1t]
      simp
    rw [hfree]
    have hsub : (l1t ++ l2).Sublist urs := by
      rw [hurs2]
      exact List.Sublist.append_left (List.sublist_cons_self rr l2) l1t
    refine ⟨hen, ⟨l1t ++ l2, rfl, ?_, hdist.sublist hsub⟩, ?_⟩
    · intro x hx
      exact hwf x (hsub.mem hx)
    · intro f hflt2
      by_cases hif : f = ptr / PAGE_SIZE
      · subst hif
        constructor
        · intro hcontra
          exfalso
          simp at hcontra
        · intro hrhs
          exfalso
          rcases hrhs with hk | ⟨x, hxm, hxo, hxb⟩
          · -- a kernel frame cannot be freed: ptr ≥ KERNEL_END
            rw [KERNEL_END_eq] at h4
            rw [kernelPages_eq, PAGE_SIZE_eq] at hk
            rw [PAGE_SIZE_eq] at hfa
            omega
          · -- no remaining region sits at the freed base
            rw [hfa] at hxb
            rcases List.mem_cons.mp hxm with hxk | hxa
            · exact hxo (by rw [hxk]; rfl)
            · rcases List.mem_append.mp hxa with hx1 | hx2
              · exact hl1 x (by rw [hl1t]; exact List.mem_cons_of_mem _ hx1) hxb
              · -- pairwise distinctness of urs separates rr from l2
                have hne : rr.base_address ≠ x.base_address := by
                  have hp2 : (l1t ++ rr :: l2).Pairwise
                      (fun a b => a.base_address ≠ b.base_address) := hurs2 ▸ hdist
                  have hp3 := (List.pairwise_append.mp hp2).2.1
                  exact (List.pairwise_cons.mp hp3).1 x hx2
                exact hne (hrra.trans hxb.symm)
      · simp only [if_neg hif]
        rw [hbit f hflt2]
        constructor
        · rintro (hk | ⟨x, hxm, hxo, hxb⟩)
          · exact Or.inl hk
          · right
            refine ⟨x, ?_, hxo, hxb⟩
            rw [hurs] at hxm
            rcases List.mem_cons.mp hxm with hxk | hxu
            · rw [hxk]; exact List.mem_cons_self _ _
            · rw [hurs2] at hxu
              rcases List.mem_append.mp hxu with hx1 | hx2
              · exact List.mem_cons_of_mem _ (List.mem_append_left _ hx1)
              · rcases List.mem_cons.mp hx2 with hxr | hx3
                · -- x = rr would put the region at two distinct frames
                  exfalso
                  have hpe : ptr = f * PAGE_SIZE := by rw [← hrra, ← hxr, hxb]
                  rw [PAGE_SIZE_eq] at hpe
                  apply hif
                  rw [PAGE_SIZE_eq]
                  omega
                · exact List.mem_cons_of_mem _ (List.mem_append_right _ hx3)
        · rintro (hk | ⟨x, hxm, hxo, hxb⟩)
          · exact Or.inl hk
          · right
            refine ⟨x, ?_, hxo, hxb⟩
            rw [hurs]
            rcases List.mem_cons.mp hxm with hxk | hxu
            · rw [hxk]; exact List.mem_cons_self _ _
            · exact List.mem_cons_of_mem _ (hsub.mem hxu)

theorem mm_run_inv (ops : List MMOp) : MMInv (mm_run ops) := by
  suffices h : ∀ st, MMInv st → MMInv (ops.foldl mm_step st) from h _ MMInv_init
  induction ops with
  | nil => exact fun st h => h
  | cons op rest ih =>
    intro st h
    simp only [List.foldl_cons]
    apply ih
    cases op with
    | alloc u s => exact MMInv_alloc st u s h
    | free u p => exact MMInv_free st u p h

theorem mm_regions_distinct (st : MMState) (hinv : MMInv st) :
    st.memory_regions.Pairwise (fun a b => a.base_address ≠ b.base_address) := by
  obtain ⟨-, ⟨urs, hurs, hwf, hdist⟩, -⟩ := hinv
  rw [hurs]
  refine List.pairwise_cons.mpr ⟨?_, hdist⟩
  intro b hb
  have h1 := (hwf b hb).1
  show kernelRegion.base_address ≠ b.base_address
  have h0 : kernelRegion.base_address = 0 := rfl
  rw [h0, KERNEL_END_eq] at *
  omega

/-- In an invariant state the registered regions are pairwise disjoint as
address intervals. -/
theorem MMInv_pairwise_disjoint (st : MMState) (hinv : MMInv st) :
    st.memory_regions.Pairwise (fun a b =>
      a.base_address + a.size ≤ b.base_address ∨
      b.base_address + b.size ≤ a.base_address) := by
  obtain ⟨-, ⟨urs, hurs, hwf, hdist⟩, -⟩ := hinv
  rw [hurs]
  refine List.pairwise_cons.mpr ⟨?_, ?_⟩
  · intro b hb
    left
    have h1 := (hwf b hb).1
    show kernelRegion.base_address + kernelRegion.size ≤ b.base_address
    have h0 : kernelRegion.base_address + kernelRegion.size = KERNEL_END := rfl
    rw [h0]
    exact h1
  · -- distinct page-aligned single-page regions are disjoint
    have himp : ∀ x ∈ urs, ∀ y ∈ urs, x.base_address ≠ y.base_address →
        (x.base_address + x.size ≤ y.base_address ∨
         y.base_address + y.size ≤ x.base_address) := by
      intro x hx y hy hne
      have hxw := hwf x hx
      have hyw := hwf y hy
      obtain ⟨-, -, hxs, hxa, -⟩ := hxw
      obtain ⟨-, -, hys, hya, -⟩ := hyw
      rw [hxs, hys]
      rw [PAGE_SIZE_eq] at hxa hya ⊢
      omega
    exact List.Pairwise.imp_of_mem (fun hx hy h => himp _ hx _ hy h) hdist

/-- C7: after every sequence of allocate/free calls starting from the
initialized state, a frame's bit is set iff the frame is currently
allocated (kernel-reserved, or covered by a live owned region at that
frame's base); consequently the live regions' base addresses are pairwise
distinct, so no two live allocations share a frame. -/
theorem claim_C7 (ops : List MMOp) :
    (∀ f, f < totalPages →
      ((mm_run ops).page_bitmap f = true ↔ f < kernelPages ∨
        ∃ r ∈ (mm_run ops).memory_regions, r.owner ≠ none ∧
          r.base_address = f * PAGE_SIZE)) ∧
    (mm_run ops).memory_regions.Pairwise
      (fun a b => a.base_address ≠ b.base_address) := by
  have h := mm_run_inv ops
  exact ⟨h.2.2, mm_regions_distinct _ h⟩

/-- Witness for C7 on a concrete one-allocation run. -/
theorem claim_C7_witness :
    (0 : Nat) < totalPages ∧
    ((mm_run [MMOp.alloc (some 1) PAGE_SIZE]).page_bitmap 0 = true ↔
      0 < kernelPages ∨
      ∃ r ∈ (mm_run [MMOp.alloc (some 1) PAGE_SIZE]).memory_regions,
        r.owner ≠ none ∧ r.base_address = 0 * PAGE_SIZE) :=
  ⟨by decide, (claim_C7 [MMOp.alloc (some 1) PAGE_SIZE]).1 0 (by decide)⟩

/-! ## C8: allocate / free / allocate round trip -/

theorem unregister_append_last (rs : List memory_region_t) (R : memory_region_t)
    (a : Nat) (h : ∀ x ∈ rs, x.base_address ≠ a) (hR : R.base_address = a) :
    unregister_memory_region (rs ++ [R]) a = some rs := by
  induction rs with
  | nil => simp [unregister_memory_region, hR]
  | cons hd tl ih =>
    have hhd : hd.base_address ≠ a := h hd (List.mem_cons_self _ _)
    simp only [List.cons_append, unregister_memory_region, if_neg hhd, List.append_eq]
    rw [ih (fun x hx => h x (List.mem_cons_of_mem _ hx))]

/-- Successful-allocation helper: when the scan finds a frame and the
registry has room, `allocate_memory` returns that frame's address. -/
theorem allocate_memory_eq_some (st : MMState) (u f hint2 : Nat)
    (hf : find_free_page st.page_bitmap st.next_free_page = (some f, hint2))
    (hnotfull : st.memory_regions.length < MAX_MEMORY_REGIONS) :
    (allocate_memory st (some u) PAGE_SIZE).2 = some (f * PAGE_SIZE) := by
  simp [allocate_memory, hf, register_memory_region, Nat.not_le.mpr hnotfull]

/-- C8: from a state satisfying the allocator invariant, with a current
principal and a non-full registry, allocating a page, freeing it, and
allocating again with no other activity returns the same address — the
free clears the bit and rewinds the hint to the freed frame, and the next
scan finds that frame first. -/
theorem claim_C8 (st : MMState) (u a : Nat)
    (hinv : MMInv st)
    (hnotfull : st.memory_regions.length < MAX_MEMORY_REGIONS)
    (halloc : (allocate_memory st (some u) PAGE_SIZE).2 = some a) :
    (allocate_memory
      (free_memory (allocate_memory st (some u) PAGE_SIZE).1 (some u) a)
      (some u) PAGE_SIZE).2 = some a := by
  have hen : st.memory_protection_enabled = true := hinv.1
  have hbit := hinv.2.2
  cases hf : find_free_page st.page_bitmap st.next_free_page with
  | mk o hint2 =>
  cases o with
  | none =>
    exfalso
    have hnone : allocate_memory st (some u) PAGE_SIZE = (st, none) := by
      simp [allocate_memory, hf]
    rw [hnone] at halloc
    simp at halloc
  | some f =>
    obtain ⟨hs1, hs2, hs3, hs4, hs5⟩ := find_free_page_some_spec _ _ _ _ hf
    have hreg : register_memory_region st.memory_regions (f * PAGE_SIZE) PAGE_SIZE
        (MEM_PROT_READ ||| MEM_PROT_WRITE) (some u) =
        some (st.memory_regions ++
          [⟨f * PAGE_SIZE, PAGE_SIZE, MEM_PROT_READ ||| MEM_PROT_WRITE,
            some u, true⟩]) := by
      simp [register_memory_region, Nat.not_le.mpr hnotfull]
    have ha1 : allocate_memory st (some u) PAGE_SIZE =
        ({ st with
            page_bitmap := fun i => if i = f then true else st.page_bitmap i,
            next_free_page := hint2,
            memory_regions := st.memory_regions ++
              [⟨f * PAGE_SIZE, PAGE_SIZE, MEM_PROT_READ ||| MEM_PROT_WRITE,
                some u, true⟩] }, some (f * PAGE_SIZE)) := by
      simp [allocate_memory, hf, hreg]
    have haf : a = f * PAGE_SIZE := by
      rw [ha1] at halloc
      exact (Option.some.inj halloc).symm
    subst haf
    -- the found frame is above the kernel and not in the registry
    have hfk : kernelPages ≤ f := by
      by_contra hlt
      push_neg at hlt
      have := (hbit f hs2).mpr (Or.inl hlt)
      rw [hs3] at this
      simp at this
    have hfr : ∀ r ∈ st.memory_regions, r.owner ≠ none →
        r.base_address ≠ f * PAGE_SIZE := by
      intro r hr hro herb
      have := (hbit f hs2).mpr (Or.inr ⟨r, hr, hro, herb⟩)
      rw [hs3] at this
      simp at this
    rw [ha1]
    -- invariant at the post-allocation state
    have hinv1 : MMInv ({ st with
        page_bitmap := fun i => if i = f then true else st.page_bitmap i,
        next_free_page := hint2,
        memory_regions := st.memory_regions ++
          [⟨f * PAGE_SIZE, PAGE_SIZE, MEM_PROT_READ ||| MEM_PROT_WRITE,
            some u, true⟩] } : MMState) := by
      have h := MMInv_alloc st (some u) PAGE_SIZE hinv
      rw [ha1] at h
      exact h
    -- the free validates and removes exactly the new region
    have hp0 : f * PAGE_SIZE ≠ 0 := by
      rw [PAGE_SIZE_eq]
      rw [kernelPages_eq] at hfk
      omega
    have hflt2 : f * PAGE_SIZE + PAGE_SIZE ≤ PHYS_MEMORY_END := by
      rw [PAGE_SIZE_eq, PHYS_MEMORY_END_eq]
      rw [totalPages_eq] at hs2
      omega
    have hvok : validate_memory_access ({ st with
        page_bitmap := fun i => if i = f then true else st.page_bitmap i,
        next_free_page := hint2,
        memory_regions := st.memory_regions ++
          [⟨f * PAGE_SIZE, PAGE_SIZE, MEM_PROT_READ ||| MEM_PROT_WRITE,
            some u, true⟩] } : MMState) (some u) (f * PAGE_SIZE) PAGE_SIZE
        MEM_PROT_WRITE = .ok () := by
      rw [validate_eq_region_check _ _ _ _ _ hinv1.1 hp0 (by decide)
        (by
          rw [Nat.mod_eq_of_lt (by
            rw [PAGE_SIZE_eq] at *
            rw [U32_eq]
            rw [PHYS_MEMORY_END_eq] at hflt2
            omega)]
          omega)
        (by
          rw [PAGE_SIZE_eq, KERNEL_END_eq]
          rw [kernelPages_eq] at hfk
          omega)
        hflt2 (Nat.mul_mod_left f PAGE_SIZE)]
      rw [region_check_of_covering (some u) (f * PAGE_SIZE)
        (f * PAGE_SIZE + PAGE_SIZE) MEM_PROT_WRITE _
        ⟨f * PAGE_SIZE, PAGE_SIZE, MEM_PROT_READ ||| MEM_PROT_WRITE, some u, true⟩
        (MMInv_pairwise_disjoint _ hinv1)
        (by rw [PAGE_SIZE_eq]; omega)
        (List.mem_append_right _ (List.mem_singleton.mpr rfl))
        ⟨le_rfl, le_rfl⟩]
      rw [if_neg (by
        show ¬((MEM_PROT_READ ||| MEM_PROT_WRITE) &&& MEM_PROT_WRITE = 0)
        decide), if_neg (by simp)]
    have hvb : validate_ok ({ st with
        page_bitmap := fun i => if i = f then true else st.page_bitmap i,
        next_free_page := hint2,
        memory_regions := st.memory_regions ++
          [⟨f * PAGE_SIZE, PAGE_SIZE, MEM_PROT_READ ||| MEM_PROT_WRITE,
            some u, true⟩] } : MMState) (some u) (f * PAGE_SIZE) PAGE_SIZE
        MEM_PROT_WRITE = true := (validate_ok_iff _ _ _ _ _).mpr hvok
    have hdiv : f * PAGE_SIZE / PAGE_SIZE = f :=
      Nat.mul_div_cancel f (by decide)
    have hun : unregister_memory_region
        (st.memory_regions ++
          [⟨f * PAGE_SIZE, PAGE_SIZE, MEM_PROT_READ ||| MEM_PROT_WRITE,
            some u, true⟩]) (f * PAGE_SIZE) = some st.memory_regions := by
      apply unregister_append_last
      · intro x hx
        obtain ⟨-, ⟨urs, hurs, hwf, -⟩, -⟩ := hinv
        rw [hurs] at hx
        rcases List.mem_cons.mp hx with hxk | hxu
        · rw [hxk]
          show (0 : Nat) ≠ f * PAGE_SIZE
          omega
        · exact hfr x (by rw [hurs]; exact List.mem_cons_of_mem _ hxu)
            ((hwf x hxu).2.2.2.2)
      · rfl
    have hfree : free_memory ({ st with
        page_bitmap := fun i => if i = f then true else st.page_bitmap i,
        next_free_page := hint2,
        memory_regions := st.memory_regions ++
          [⟨f * PAGE_SIZE, PAGE_SIZE, MEM_PROT_READ ||| MEM_PROT_WRITE,
            some u, true⟩] } : MMState) (some u) (f * PAGE_SIZE) =
        { st with
            page_bitmap := fun i => if i = f then false
              else if i = f then true else st.page_bitmap i,
            next_free_page := f,
            memory_regions := st.memory_regions } := by
      simp only [free_memory, if_neg hp0]
      rw [hvb]
      rw [if_neg (by simp)]
      rw [hdiv, if_pos hs2, hun, hs4, if_pos (by omega)]
    rw [hfree]
    -- the second allocation finds the same frame first
    have hf2 : find_free_page
        (fun i => if i = f then false else if i = f then true else st.page_bitmap i)
        f = (some f, f + 1) :=
      find_free_page_eq_some _ f f le_rfl hs2 (by simp)
        (fun j hj1 hj2 => by omega)
    exact allocate_memory_eq_some _ u f (f + 1) hf2 hnotfull

/-- Witness for C8 on the freshly initialized state. -/
theorem claim_C8_witness :
    (allocate_memory
      (free_memory (allocate_memory init_memory_management (some 1) PAGE_SIZE).1
        (some 1) 1048576)
      (some 1) PAGE_SIZE).2 = some 1048576 :=
  claim_C8 init_memory_management 1 1048576 MMInv_init (by decide) (by decide)

/-! ## Scheduler lemmas -/

theorem getD_upd_ne (ts : List sc_thread_t) (i j : Nat)
    (f : sc_thread_t → sc_thread_t) (h : i ≠ j) :
    (upd_thread ts i f).getD j default = ts.getD j default := by
  unfold upd_thread
  simp [List.getD, List.getElem?_set_ne h]

theorem getD_upd_self (ts : List sc_thread_t) (i : Nat)
    (f : sc_thread_t → sc_thread_t) (h : i < ts.length) :
    (upd_thread ts i f).getD i default = f (ts.getD i default) := by
  unfold upd_thread
  simp [List.getD, List.getElem?_set_eq_of_lt _ h, List.getElem?_eq_getElem h]

theorem upd_length (ts : List sc_thread_t) (i : Nat)
    (f : sc_thread_t → sc_thread_t) :
    (upd_thread ts i f).length = ts.length := by
  unfold upd_thread
  exact List.length_set ts i _

/-! ## C5: a stale popped entry is re-enqueued, not discarded -/

/-- A state with a single Done thread whose id is still in the queue. -/
def staleState : SchedState :=
  ⟨[⟨0, 0, 1, 1, fun _ => .runs, 0, .THREAD_DONE, 0⟩], [0], fun _ => 0, 1, none⟩

/-- C5 counterexample: `schedule_process` on a stale (non-Ready) head does
NOT discard the popped id — it pushes it back, so the queue again holds
the id instead of being empty as the claim requires. -/
theorem claim_C5_cex :
    (schedule_process staleState).sc_run_queue = [0] ∧
    (schedule_process staleState).sc_run_queue ≠ [] := by
  exact ⟨rfl, by decide⟩

/-- C5 amended: when `schedule_process` pops an id whose thread is not
Ready, the id is pushed back onto the tail of the run queue (not
discarded), and no thread state, tick counter, CPU assignment or load
changes on that call. -/
theorem claim_C5 (st : SchedState) (id : Nat) (rest : List Nat)
    (hq : st.sc_run_queue = id :: rest)
    (hlen : st.sc_run_queue.length ≤ SC_MAX_THREADS - 1)
    (hns : (st.sc_threads.getD id default).state ≠ .THREAD_READY) :
    schedule_process st = { st with sc_run_queue := rest ++ [id] } ∧
    (schedule_process st).sc_threads = st.sc_threads ∧
    (schedule_process st).sc_cpu_load = st.sc_cpu_load ∧
    (schedule_process st).sc_current_thread = st.sc_current_thread := by
  have hrl : rest.length + 1 ≤ SC_MAX_THREADS - 1 := by
    rw [hq] at hlen
    simpa using hlen
  have hpush : push_rq rest id = (rest ++ [id], true) := by
    unfold push_rq
    rw [if_neg (by
      show ¬SC_MAX_THREADS ≤ rest.length + 1
      have hs : SC_MAX_THREADS = 64 := rfl
      omega)]
  have hmain : schedule_process st = { st with sc_run_queue := rest ++ [id] } := by
    unfold schedule_process
    rw [hq]
    simp only [pop_rq]
    rw [if_pos (by exact hns)]
    rw [hpush]
  exact ⟨hmain, by rw [hmain], by rw [hmain], by rw [hmain]⟩

/-- Witness for C5 at the concrete stale state. -/
theorem claim_C5_witness :
    schedule_process staleState = { staleState with sc_run_queue := [] ++ [0] } :=
  (claim_C5 staleState 0 [] rfl (by decide) (by decide)).1

/-! ## C10: thread created while the run queue is full -/

theorem mem_push_rq (q : List Nat) (x id : Nat) (hx : x ∉ q) (hne : x ≠ id) :
    x ∉ (push_rq q id).1 := by
  unfold push_rq
  split
  · exact hx
  · simp [hx, hne]

theorem upd_upd (ts : List sc_thread_t) (j : Nat) (f g : sc_thread_t → sc_thread_t) :
    upd_thread (upd_thread ts j f) j g = upd_thread ts j (fun t => g (f t)) := by
  by_cases h : j < ts.length
  · unfold upd_thread
    rw [show (ts.set j (f (ts.getD j default))).getD j default = f (ts.getD j default) from by
      simp [List.getD, List.getElem?_set_eq_of_lt _ h]]
    exact List.set_set _ _ _ _
  · have hge : ts.length ≤ j := Nat.le_of_not_lt h
    unfold upd_thread
    rw [List.set_eq_of_length_le hge, List.set_eq_of_length_le hge,
      List.set_eq_of_length_le hge]

/-- Marking a thread `RUNNING` changes neither its closure nor its
invocation counter. -/
theorem getD_upd_run (ts : List sc_thread_t) (j : Nat) :
    ((upd_thread ts j (fun t => { t with state := .THREAD_RUNNING })).getD j
      default).entry = (ts.getD j default).entry ∧
    ((upd_thread ts j (fun t => { t with state := .THREAD_RUNNING })).getD j
      default).steps = (ts.getD j default).steps := by
  by_cases h : j < ts.length
  · rw [getD_upd_self _ _ _ h]
    exact ⟨rfl, rfl⟩
  · have hge : ts.length ≤ j := Nat.le_of_not_lt h
    unfold upd_thread
    rw [List.set_eq_of_length_le hge]
    exact ⟨rfl, rfl⟩

/-- Neither the `RUNNING` mark nor the step bump changes the thread's CPU
assignment. -/
theorem getD_upd2_cpu (ts : List sc_thread_t) (j : Nat) :
    ((upd_thread (upd_thread ts j (fun t => { t with state := .THREAD_RUNNING })) j
        (fun u => { u with steps := u.steps + 1 })).getD j default).cpu_id =
      (ts.getD j default).cpu_id := by
  rw [upd_upd]
  by_cases h : j < ts.length
  · rw [getD_upd_self _ _ _ h]
  · have hge : ts.length ≤ j := Nat.le_of_not_lt h
    unfold upd_thread
    rw [List.set_eq_of_length_le hge]

/-- Dispatch equation: the popped thread returns without scheduler calls
(implicit yield). -/
theorem run_ready_runs (st0 : SchedState) (j : Nat)
    (hact : (st0.sc_threads.getD j default).entry
      (st0.sc_threads.getD j default).steps = .runs) :
    run_ready st0 j =
      { st0 with
          sc_threads := upd_thread st0.sc_threads j (fun t =>
            { t with state := .THREAD_READY, steps := t.steps + 1, ticks := t.ticks + 1 }),
          sc_run_queue := (push_rq st0.sc_run_queue j).1,
          sc_current_thread := none } := by
  unfold run_ready run_slice
  simp only [(getD_upd_run st0.sc_threads j).1, (getD_upd_run st0.sc_threads j).2, hact]
  rw [if_pos trivial, upd_upd, upd_upd]

/-- Dispatch equation: the popped thread calls `yield`. -/
theorem run_ready_yields (st0 : SchedState) (j : Nat)
    (hact : (st0.sc_threads.getD j default).entry
      (st0.sc_threads.getD j default).steps = .yields) :
    run_ready st0 j =
      { st0 with
          sc_threads := upd_thread st0.sc_threads j (fun t =>
            { t with state := .THREAD_READY, steps := t.steps + 1 }),
          sc_run_queue := (push_rq st0.sc_run_queue j).1,
          sc_current_thread := none } := by
  unfold run_ready run_slice
  simp only [(getD_upd_run st0.sc_threads j).1, (getD_upd_run st0.sc_threads j).2, hact]
  unfold yield
  simp only
  rw [if_neg (fun hc => Option.noConfusion hc), upd_upd, upd_upd]

/-- Dispatch equation: the popped thread calls `complete_current_thread`. -/
theorem run_ready_completes (st0 : SchedState) (j : Nat)
    (hact : (st0.sc_threads.getD j default).entry
      (st0.sc_threads.getD j default).steps = .completes) :
    run_ready st0 j =
      { st0 with
          sc_threads := upd_thread st0.sc_threads j (fun t =>
            { t with state := .THREAD_DONE, steps := t.steps + 1 }),
          sc_cpu_load := fun c =>
            if c = (st0.sc_threads.getD j default).cpu_id then
              st0.sc_cpu_load ((st0.sc_threads.getD j default).cpu_id) - 1
            else st0.sc_cpu_load c,
          sc_current_thread := none } := by
  unfold run_ready run_slice
  simp only [(getD_upd_run st0.sc_threads j).1, (getD_upd_run st0.sc_threads j).2, hact]
  unfold complete_current_thread
  simp only [getD_upd2_cpu]
  rw [if_neg (fun hc => Option.noConfusion hc), upd_upd, upd_upd]

/-- A thread id that is not in the run queue and not current stays
untouched by `schedule_process`: it is never popped, never pushed, never
made current, and its table entry never changes. -/
theorem schedule_keeps_untracked (st : SchedState) (id : Nat)
    (h1 : id ∉ st.sc_run_queue) (h2 : st.sc_current_thread ≠ some id) :
    id ∉ (schedule_process st).sc_run_queue ∧
    (schedule_process st).sc_current_thread ≠ some id ∧
    (schedule_process st).sc_threads.getD id default = st.sc_threads.getD id default ∧
    (schedule_process st).sc_threads.length = st.sc_threads.length := by
  cases hq : st.sc_run_queue with
  | nil =>
    have hsp : schedule_process st = st := by
      unfold schedule_process
      rw [hq]
      rfl
    rw [hsp]
    exact ⟨hq ▸ h1, h2, rfl, rfl⟩
  | cons j rest =>
    rw [hq] at h1
    have hjid : id ≠ j := fun h => h1 (by rw [h]; exact List.mem_cons_self _ _)
    have hidr : id ∉ rest := fun h => h1 (List.mem_cons_of_mem j h)
    have hsp0 : schedule_process st =
        if (st.sc_threads.getD j default).state ≠ .THREAD_READY then
          { st with sc_run_queue := (push_rq rest j).1 }
        else run_ready { st with sc_run_queue := rest } j := by
      unfold schedule_process
      rw [hq]
      rfl
    by_cases hready : (st.sc_threads.getD j default).state ≠ .THREAD_READY
    · rw [hsp0, if_pos hready]
      exact ⟨mem_push_rq rest id j hidr hjid, h2, rfl, rfl⟩
    · rw [hsp0, if_neg hready]
      cases hact : (st.sc_threads.getD j default).entry
          (st.sc_threads.getD j default).steps with
      | runs =>
        rw [run_ready_runs { st with sc_run_queue := rest } j hact]
        dsimp only
        refine ⟨mem_push_rq rest id j hidr hjid, by simp, ?_, ?_⟩
        · exact getD_upd_ne st.sc_threads j id _ (fun h => hjid h.symm)
        · exact upd_length st.sc_threads j _
      | yields =>
        rw [run_ready_yields { st with sc_run_queue := rest } j hact]
        dsimp only
        refine ⟨mem_push_rq rest id j hidr hjid, by simp, ?_, ?_⟩
        · exact getD_upd_ne st.sc_threads j id _ (fun h => hjid h.symm)
        · exact upd_length st.sc_threads j _
      | completes =>
        rw [run_ready_completes { st with sc_run_queue := rest } j hact]
        dsimp only
        refine ⟨hidr, by simp, ?_, ?_⟩
        · exact getD_upd_ne st.sc_threads j id _ (fun h => hjid h.symm)
        · exact upd_length st.sc_threads j _

/-- C10: when the thread table has room but the ready queue already holds
its maximum of `SC_MAX_THREADS - 1` entries, `create_thread` still
returns a fresh id, marks the thread Ready and bumps the chosen CPU's
load counter, but the failed `push_rq` is ignored: the queue is unchanged,
so the thread is never enqueued and no number of `schedule_process` calls
ever dispatches it (it stays Ready, out of the queue, never current). -/
theorem claim_C10 (st : SchedState) (entry : Nat → SliceAct) (priority : Int)
    (htable : st.sc_threads.length < SC_MAX_THREADS)
    (hqfull : st.sc_run_queue.length = SC_MAX_THREADS - 1)
    (hqwf : ∀ j ∈ st.sc_run_queue, j < st.sc_threads.length)
    (hcur : st.sc_current_thread = none) :
    (create_thread st entry priority).2 = some st.sc_threads.length ∧
    (create_thread st entry priority).1.sc_run_queue = st.sc_run_queue ∧
    ((create_thread st entry priority).1.sc_threads.getD st.sc_threads.length
      default).state = .THREAD_READY ∧
    (create_thread st entry priority).1.sc_cpu_load (create_best_cpu st) =
      st.sc_cpu_load (create_best_cpu st) + 1 ∧
    ∀ n,
      ((schedule_process^[n] (create_thread st entry priority).1).sc_threads.getD
        st.sc_threads.length default).state = .THREAD_READY ∧
      st.sc_threads.length ∉
        (schedule_process^[n] (create_thread st entry priority).1).sc_run_queue ∧
      (schedule_process^[n] (create_thread st entry priority).1).sc_current_thread ≠
        some st.sc_threads.length := by
  have hpush : push_rq st.sc_run_queue st.sc_threads.length =
      (st.sc_run_queue, false) := by
    unfold push_rq
    rw [if_pos (by
      rw [hqfull]
      have h64 : SC_MAX_THREADS = 64 := rfl
      omega)]
  have hcreate : create_thread st entry priority =
      ({ st with
          sc_threads := st.sc_threads ++
            [⟨st.sc_threads.length, create_best_cpu st, priority, 1, entry, 0,
              .THREAD_READY, 0⟩],
          sc_run_queue := st.sc_run_queue,
          sc_cpu_load := fun c => if c = create_best_cpu st then
            st.sc_cpu_load (create_best_cpu st) + 1 else st.sc_cpu_load c },
        some st.sc_threads.length) := by
    unfold create_thread
    rw [if_neg (Nat.not_le.mpr htable)]
    dsimp only
    unfold create_best_cpu
    rw [hpush]
  have hgetD : (st.sc_threads ++
      [(⟨st.sc_threads.length, create_best_cpu st, priority, 1, entry, 0,
        .THREAD_READY, 0⟩ : sc_thread_t)]).getD st.sc_threads.length default =
      (⟨st.sc_threads.length, create_best_cpu st, priority, 1, entry, 0,
        .THREAD_READY, 0⟩ : sc_thread_t) := by
    simp [List.getD]
  refine ⟨by rw [hcreate], by rw [hcreate], ?_, ?_, ?_⟩
  · rw [hcreate]
    dsimp only
    rw [hgetD]
  · rw [hcreate]
    dsimp only
    rw [if_pos rfl]
  · intro n
    induction n with
    | zero =>
      simp only [Function.iterate_zero_apply]
      rw [hcreate]
      dsimp only
      refine ⟨by rw [hgetD], ?_, ?_⟩
      · intro hmem
        exact absurd (hqwf _ hmem) (lt_irrefl _)
      · rw [hcur]
        simp
    | succ n ih =>
      rw [Function.iterate_succ_apply']
      obtain ⟨ih1, ih2, ih3⟩ := ih
      obtain ⟨k1, k2, k3, k4⟩ := schedule_keeps_untracked _ _ ih2 ih3
      exact ⟨by rw [k3]; exact ih1, k1, k2⟩

/-- A scheduler state whose ready queue is at capacity (63 entries) while
the thread table still has room. -/
def fullQState : SchedState :=
  ⟨(List.range 63).map (fun i => ⟨i, 0, 1, 1, fun _ => .runs, 0, .THREAD_READY, 0⟩),
   List.range 63, fun _ => 0, 1, none⟩

/-- Witness for C10 at the concrete full-queue state. -/
theorem claim_C10_witness :
    (create_thread fullQState (fun _ => .runs) 1).2 =
      some fullQState.sc_threads.length ∧
    (create_thread fullQState (fun _ => .runs) 1).1.sc_run_queue =
      fullQState.sc_run_queue ∧
    ((schedule_process^[5]
      (create_thread fullQState (fun _ => .runs) 1).1).sc_threads.getD
        fullQState.sc_threads.length default).state = .THREAD_READY := by
  have h := claim_C10 fullQState (fun _ => .runs) 1
    (by simp [fullQState]; decide)
    (by simp [fullQState]; decide)
    (by simp [fullQState])
    rfl
  exact ⟨h.1, h.2.1, (h.2.2.2.2 5).1⟩

/-! ## C4: equal-target threads run to completion -/

/-- Per-thread invariant for the equal-target scenario: the thread either
is Ready with `ticks = steps < M` and sits exactly once in the queue, or
is Done with `steps = M`, `ticks = M - 1`, and is absent from the queue. -/
def c4_ok (M : Nat) (q : List Nat) (i : Nat) (t : sc_thread_t) : Prop :=
  t.entry = demo_script M ∧
  ((t.state = .THREAD_READY ∧ t.ticks = t.steps ∧ t.steps < M ∧ q.count i = 1) ∨
   (t.state = .THREAD_DONE ∧ t.steps = M ∧ t.ticks = M - 1 ∧ q.count i = 0))

def C4Inv (M : Nat) (st : SchedState) : Prop :=
  st.sc_current_thread = none ∧
  st.sc_run_queue.length + 1 ≤ SC_MAX_THREADS ∧
  (∀ j ∈ st.sc_run_queue, j < st.sc_threads.length) ∧
  (∀ i, i < st.sc_threads.length →
    c4_ok M st.sc_run_queue i (st.sc_threads.getD i default))

/-- Remaining scheduling work: slices still owed across all threads. -/
def c4_pot (M : Nat) (st : SchedState) : Nat :=
  (st.sc_threads.map (fun t => M - t.steps)).sum

theorem sum_map_set (ts : List sc_thread_t) (j : Nat) (v : sc_thread_t)
    (f : sc_thread_t → Nat) (h : j < ts.length) :
    ((ts.set j v).map f).sum + f (ts.getD j default) = (ts.map f).sum + f v := by
  induction ts generalizing j with
  | nil => simp at h
  | cons hd tl ih =>
    cases j with
    | zero =>
      simp [List.getD]
      omega
    | succ n =>
      have hn : n < tl.length := by simpa using h
      have hgd : (hd :: tl).getD (n + 1) default = tl.getD n default := by
        simp [List.getD]
      simp only [List.set, List.map_cons, List.sum_cons, hgd]
      have := ih n hn
      omega

/-- One-step unfolding of `schedule_process` on a non-empty queue. -/
theorem schedule_process_cons (st : SchedState) (j : Nat) (rest : List Nat)
    (hq : st.sc_run_queue = j :: rest) :
    schedule_process st =
      if (st.sc_threads.getD j default).state ≠ .THREAD_READY then
        { st with sc_run_queue := (push_rq rest j).1 }
      else run_ready { st with sc_run_queue := rest } j := by
  unfold schedule_process
  rw [hq]
  rfl

/-- Shape of the state after `init_scheduler` and `T` creations of
equal-target threads: thread `i` is Ready on some CPU with zero
steps/ticks, and the queue holds `0, 1, …, T-1` in order. -/
theorem mk_demo_spec (C T M : Nat) (hT : T ≤ SC_MAX_THREADS - 1) :
    ∃ cpus : Nat → Nat,
      (mk_demo C T M).sc_threads = (List.range T).map (fun i =>
        ⟨i, cpus i, 1, 1, demo_script M, 0, .THREAD_READY, 0⟩) ∧
      (mk_demo C T M).sc_run_queue = List.range T ∧
      (mk_demo C T M).sc_current_thread = none := by
  induction T with
  | zero =>
    exact ⟨fun _ => 0, by simp [mk_demo, init_scheduler],
      by simp [mk_demo, init_scheduler], by simp [mk_demo, init_scheduler]⟩
  | succ T ih =>
    obtain ⟨cpus, hth, hq, hcur⟩ := ih (by
      have h64 : SC_MAX_THREADS = 64 := rfl
      omega)
    have hstep : mk_demo C (T + 1) M =
        (create_thread (mk_demo C T M) (demo_script M) 1).1 := by
      unfold mk_demo
      rw [List.range_succ, List.foldl_append, List.foldl_cons, List.foldl_nil]
    have hlen : (mk_demo C T M).sc_threads.length = T := by
      rw [hth]
      simp
    have hpush : push_rq (mk_demo C T M).sc_run_queue T =
        (List.range (T + 1), true) := by
      unfold push_rq
      rw [hq]
      rw [if_neg (by
        have h64 : SC_MAX_THREADS = 64 := rfl
        simp only [List.length_range]
        omega)]
      rw [List.range_succ]
    have hcreate : create_thread (mk_demo C T M) (demo_script M) 1 =
        ({ mk_demo C T M with
            sc_threads := (mk_demo C T M).sc_threads ++
              [⟨T, create_best_cpu (mk_demo C T M), 1, 1, demo_script M, 0,
                .THREAD_READY, 0⟩],
            sc_run_queue := List.range (T + 1),
            sc_cpu_load := fun c =>
              if c = create_best_cpu (mk_demo C T M) then
                (mk_demo C T M).sc_cpu_load (create_best_cpu (mk_demo C T M)) + 1
              else (mk_demo C T M).sc_cpu_load c },
          some T) := by
      unfold create_thread
      rw [if_neg (by
        rw [hlen]
        have h64 : SC_MAX_THREADS = 64 := rfl
        omega)]
      dsimp only
      unfold create_best_cpu
      rw [hlen, hpush]
    refine ⟨fun i => if i = T then create_best_cpu (mk_demo C T M) else cpus i,
      ?_, ?_, ?_⟩
    · rw [hstep, hcreate]
      dsimp only
      rw [hth, List.range_succ, List.map_append]
      congr 1
      · apply List.map_congr_left
        intro i hi
        have hiT : i ≠ T := by
          rw [List.mem_range] at hi
          omega
        simp [hiT]
      · simp
    · rw [hstep, hcreate]
    · rw [hstep, hcreate]
      dsimp only
      exact hcur

/-- One `schedule_process` call from an equal-target invariant state with
work remaining preserves the invariant and performs exactly one slice. -/
theorem c4_step (M : Nat) (st : SchedState)
    (hinv : C4Inv M st) (hne : get_thread_count st ≠ 0) :
    C4Inv M (schedule_process st) ∧
    c4_pot M (schedule_process st) + 1 = c4_pot M st := by
  obtain ⟨hcur, hqlen, hqwf, hok⟩ := hinv
  have h64 : SC_MAX_THREADS = 64 := rfl
  -- the queue is non-empty
  have hqne : st.sc_run_queue ≠ [] := by
    intro hemp
    apply hne
    unfold get_thread_count
    rw [List.length_eq_zero, List.filter_eq_nil_iff]
    intro t ht
    obtain ⟨i, hi, hti⟩ := List.mem_iff_getElem.mp ht
    have hoki := hok i hi
    rw [List.getD_eq_getElem _ _ hi, hti] at hoki
    rcases hoki.2 with hr | hd
    · rw [hemp] at hr
      simp at hr
    · simp [hd.1]
  cases hq : st.sc_run_queue with
  | nil => exact absurd hq hqne
  | cons j rest =>
    have hj : j < st.sc_threads.length := hqwf j (by rw [hq]; exact List.mem_cons_self _ _)
    have hokj := hok j hj
    have hentry := hokj.1
    have hready : (st.sc_threads.getD j default).state = .THREAD_READY ∧
        (st.sc_threads.getD j default).ticks = (st.sc_threads.getD j default).steps ∧
        (st.sc_threads.getD j default).steps < M ∧ rest.count j = 0 := by
      rcases hokj.2 with hr | hd
      · refine ⟨hr.1, hr.2.1, hr.2.2.1, ?_⟩
        have := hr.2.2.2
        rw [hq] at this
        simp [List.count_cons] at this
        exact this
      · exfalso
        have := hd.2.2.2
        rw [hq] at this
        simp [List.count_cons] at this
    obtain ⟨hstR, hticks, hstepsM, hrest0⟩ := hready
    rw [hq] at hqlen
    simp only [List.length_cons] at hqlen
    by_cases hlast : (st.sc_threads.getD j default).steps = M - 1
    · -- final slice: the closure completes
      have hact : (st.sc_threads.getD j default).entry
          (st.sc_threads.getD j default).steps = .completes := by
        rw [hentry]
        simp only [demo_script]
        rw [if_pos (by omega)]
      have hsp : schedule_process st =
          { st with
              sc_threads := upd_thread st.sc_threads j (fun t =>
                { t with state := .THREAD_DONE, steps := t.steps + 1 }),
              sc_run_queue := rest,
              sc_cpu_load := fun c =>
                if c = (st.sc_threads.getD j default).cpu_id then
                  st.sc_cpu_load ((st.sc_threads.getD j default).cpu_id) - 1
                else st.sc_cpu_load c,
              sc_current_thread := none } := by
        rw [schedule_process_cons st j rest hq, if_neg (fun hc => hc hstR),
          run_ready_completes { st with sc_run_queue := rest } j hact]
      rw [hsp]
      refine ⟨⟨rfl, by dsimp only; omega, ?_, ?_⟩, ?_⟩
      · intro x hx
        dsimp only at hx ⊢
        rw [upd_length]
        exact hqwf x (by rw [hq]; exact List.mem_cons_of_mem _ hx)
      · intro i hi
        dsimp only at hi ⊢
        rw [upd_length] at hi
        by_cases hij : i = j
        · subst hij
          rw [getD_upd_self _ _ _ hj]
          refine ⟨hentry, Or.inr ⟨rfl, by dsimp only; omega, by dsimp only; omega,
            hrest0⟩⟩
        · rw [getD_upd_ne st.sc_threads j i _ (Ne.symm hij)]
          have hoki := hok i hi
          have hji : j ≠ i := Ne.symm hij
          have hcnt : rest.count i = st.sc_run_queue.count i := by
            rw [hq]
            simp [List.count_cons, hji]
          rcases hoki.2 with hr | hd
          · exact ⟨hoki.1, Or.inl ⟨hr.1, hr.2.1, hr.2.2.1, by rw [hcnt]; exact hr.2.2.2⟩⟩
          · exact ⟨hoki.1, Or.inr ⟨hd.1, hd.2.1, hd.2.2.1, by rw [hcnt]; exact hd.2.2.2⟩⟩
      · unfold c4_pot
        dsimp only
        have hsum := sum_map_set st.sc_threads j
          ((fun t => { t with state := .THREAD_DONE, steps := t.steps + 1 })
            (st.sc_threads.getD j default))
          (fun t => M - t.steps) hj
        unfold upd_thread
        dsimp only at hsum ⊢
        omega
    · -- intermediate slice: implicit yield
      have hact : (st.sc_threads.getD j default).entry
          (st.sc_threads.getD j default).steps = .runs := by
        rw [hentry]
        simp only [demo_script]
        rw [if_neg (by omega)]
      have hpush : push_rq rest j = (rest ++ [j], true) := by
        unfold push_rq
        rw [if_neg (by omega)]
      have hsp : schedule_process st =
          { st with
              sc_threads := upd_thread st.sc_threads j (fun t =>
                { t with state := .THREAD_READY, steps := t.steps + 1,
                         ticks := t.ticks + 1 }),
              sc_run_queue := rest ++ [j],
              sc_current_thread := none } := by
        rw [schedule_process_cons st j rest hq, if_neg (fun hc => hc hstR),
          run_ready_runs { st with sc_run_queue := rest } j hact]
        dsimp only
        rw [hpush]
      rw [hsp]
      refine ⟨⟨rfl, by dsimp only; simp only [List.length_append]; simp; omega, ?_, ?_⟩, ?_⟩
      · intro x hx
        dsimp only at hx ⊢
        rw [upd_length]
        rcases List.mem_append.mp hx with hx1 | hx2
        · exact hqwf x (by rw [hq]; exact List.mem_cons_of_mem _ hx1)
        · rw [List.mem_singleton] at hx2
          exact hx2 ▸ hj
      · intro i hi
        dsimp only at hi ⊢
        rw [upd_length] at hi
        by_cases hij : i = j
        · subst hij
          rw [getD_upd_self _ _ _ hj]
          refine ⟨hentry, Or.inl ⟨rfl, by dsimp only; omega, by dsimp only; omega, ?_⟩⟩
          rw [List.count_append]
          simp [List.count_cons, hrest0]
        · rw [getD_upd_ne st.sc_threads j i _ (Ne.symm hij)]
          have hoki := hok i hi
          have hji : j ≠ i := Ne.symm hij
          have hcnt : (rest ++ [j]).count i = st.sc_run_queue.count i := by
            rw [hq, List.count_append]
            simp [List.count_cons, hji]
          rcases hoki.2 with hr | hd
          · exact ⟨hoki.1, Or.inl ⟨hr.1, hr.2.1, hr.2.2.1, by rw [hcnt]; exact hr.2.2.2⟩⟩
          · exact ⟨hoki.1, Or.inr ⟨hd.1, hd.2.1, hd.2.2.1, by rw [hcnt]; exact hd.2.2.2⟩⟩
      · unfold c4_pot
        dsimp only
        have hsum := sum_map_set st.sc_threads j
          ((fun t => { t with state := .THREAD_READY, steps := t.steps + 1,
                              ticks := t.ticks + 1 }) (st.sc_threads.getD j default))
          (fun t => M - t.steps) hj
        unfold upd_thread
        dsimp only at hsum ⊢
        omega

theorem c4_run (M : Nat) :
    ∀ n st, C4Inv M st → c4_pot M st ≤ n →
      get_thread_count (run_sched n st) = 0 ∧ C4Inv M (run_sched n st) := by
  intro n
  induction n with
  | zero =>
    intro st hinv hpot
    have hz : get_thread_count st = 0 := by
      unfold get_thread_count
      rw [List.length_eq_zero, List.filter_eq_nil_iff]
      intro t ht
      obtain ⟨i, hi, hti⟩ := List.mem_iff_getElem.mp ht
      have hoki := hinv.2.2.2 i hi
      rw [List.getD_eq_getElem _ _ hi, hti] at hoki
      rcases hoki.2 with hr | hd
      · exfalso
        have hmem : (M - t.steps) ∈ st.sc_threads.map (fun t => M - t.steps) :=
          List.mem_map_of_mem _ ht
        have hzx := List.sum_eq_zero_iff.mp (Nat.le_zero.mp hpot) _ hmem
        have := hr.2.2.1
        omega
      · simp [hd.1]
    exact ⟨hz, hinv⟩
  | succ n ih =>
    intro st hinv hpot
    by_cases h0 : get_thread_count st = 0
    · have hrs : run_sched (n + 1) st = st := by
        rw [run_sched, if_pos h0]
      rw [hrs]
      exact ⟨h0, hinv⟩
    · have hrs : run_sched (n + 1) st = run_sched n (schedule_process st) := by
        rw [run_sched, if_neg h0]
      rw [hrs]
      obtain ⟨hinv2, hpot2⟩ := c4_step M st hinv h0
      exact ih (schedule_process st) hinv2 (by omega)

/-- C4 counterexample: one thread that completes on its first slice (T=1,
M=1, 4 CPUs).  The loop terminates with thread count 0, but the thread's
tick counter is 0, not M = 1 — the completing slice is not tick-counted. -/
theorem claim_C4_cex :
    get_thread_count (run_sched 1 (mk_demo 4 1 1)) = 0 ∧
    ((run_sched 1 (mk_demo 4 1 1)).sc_threads.getD 0 default).ticks = 0 ∧
    ((run_sched 1 (mk_demo 4 1 1)).sc_threads.getD 0 default).ticks ≠ 1 := by
  refine ⟨rfl, rfl, by decide⟩

/-- C4 amended: for `T ≤ 63` threads whose closures yield implicitly on
their first `M-1` slices and call `complete_current_thread` on slice `M`,
driving `schedule_process` until `get_thread_count() = 0` terminates
(within `T*M` calls) with every thread's tick counter equal to exactly
`M - 1`: the implicit-yield path counts a tick, the completing slice does
not. -/
theorem claim_C4 (C T M : Nat) (hM : 1 ≤ M) (hT : T ≤ SC_MAX_THREADS - 1) :
    get_thread_count (run_sched (T * M) (mk_demo C T M)) = 0 ∧
    ∀ t ∈ (run_sched (T * M) (mk_demo C T M)).sc_threads, t.ticks = M - 1 := by
  obtain ⟨cpus, hth, hq, hcur⟩ := mk_demo_spec C T M hT
  have h64 : SC_MAX_THREADS = 64 := rfl
  have hlen : (mk_demo C T M).sc_threads.length = T := by
    rw [hth]
    simp
  have hinv : C4Inv M (mk_demo C T M) := by
    refine ⟨hcur, ?_, ?_, ?_⟩
    · rw [hq]
      simp only [List.length_range]
      omega
    · intro j hj
      rw [hq, List.mem_range] at hj
      rw [hlen]
      exact hj
    · intro i hi
      rw [hlen] at hi
      have hgd : (mk_demo C T M).sc_threads.getD i default =
          ⟨i, cpus i, 1, 1, demo_script M, 0, .THREAD_READY, 0⟩ := by
        rw [hth, List.getD_eq_getElem _ _ (by simpa using hi)]
        simp [hi]
      rw [hgd, hq]
      refine ⟨rfl, Or.inl ⟨rfl, rfl, by dsimp only; omega, ?_⟩⟩
      exact List.count_eq_one_of_mem (List.nodup_range T) (List.mem_range.mpr hi)
  have hpot : c4_pot M (mk_demo C T M) = T * M := by
    unfold c4_pot
    rw [hth, List.map_map]
    have hconst : ((fun t => M - t.steps) ∘ (fun i =>
        (⟨i, cpus i, 1, 1, demo_script M, 0, .THREAD_READY, 0⟩ : sc_thread_t))) =
        fun _ => M := by
      funext i
      simp
    rw [hconst]
    simp [List.map_const', List.sum_replicate, smul_eq_mul]
  obtain ⟨hcount, hinvf⟩ := c4_run M (T * M) (mk_demo C T M) hinv (le_of_eq hpot)
  refine ⟨hcount, ?_⟩
  intro t ht
  obtain ⟨i, hi, hti⟩ := List.mem_iff_getElem.mp ht
  have hoki := hinvf.2.2.2 i hi
  rw [List.getD_eq_getElem _ _ hi, hti] at hoki
  rcases hoki.2 with hr | hd
  · exfalso
    unfold get_thread_count at hcount
    rw [List.length_eq_zero, List.filter_eq_nil_iff] at hcount
    have := hcount t ht
    simp [hr.1] at this
  · exact hd.2.2.1

/-- Witness for C4 with two 2-slice threads on 4 CPUs. -/
theorem claim_C4_witness :
    (1 ≤ 2 ∧ 2 ≤ SC_MAX_THREADS - 1) ∧
    (get_thread_count (run_sched (2 * 2) (mk_demo 4 2 2)) = 0 ∧
      ∀ t ∈ (run_sched (2 * 2) (mk_demo 4 2 2)).sc_threads, t.ticks = 2 - 1) :=
  ⟨⟨by decide, by decide⟩, claim_C4 4 2 2 (by decide) (by decide)⟩

/-! ## C6: load balancing -/

/-- The CPU load counters match the number of live (non-Done) threads
assigned to each CPU. -/
def loads_consistent (st : SchedState) : Prop :=
  ∀ c, c < st.sc_cpu_count →
    st.sc_cpu_load c =
      (st.sc_threads.countP
        (fun t => decide (t.state ≠ .THREAD_DONE ∧ t.cpu_id = c)) : Int)

/-- The load gap `max(load) - min(load)` as computed by the code's own
min/max selectors. -/
def cpu_gap (st : SchedState) : Int :=
  st.sc_cpu_load (lb_max_cpu st) - st.sc_cpu_load (lb_min_cpu st)

theorem min_cpu_from_spec (load : Nat → Int) :
    ∀ fuel i best,
      (min_cpu_from load i fuel best = best ∨
        (i ≤ min_cpu_from load i fuel best ∧ min_cpu_from load i fuel best < i + fuel)) ∧
      load (min_cpu_from load i fuel best) ≤ load best ∧
      ∀ c, i ≤ c → c < i + fuel → load (min_cpu_from load i fuel best) ≤ load c := by
  intro fuel
  induction fuel with
  | zero =>
    intro i best
    exact ⟨Or.inl rfl, le_rfl, fun c h1 h2 => by omega⟩
  | succ n ih =>
    intro i best
    simp only [min_cpu_from]
    obtain ⟨hpos, hval, hcov⟩ := ih (i + 1) (if load i < load best then i else best)
    have hvb : load (if load i < load best then i else best) ≤ load best := by
      split
      · omega
      · exact le_rfl
    have hvi : load (if load i < load best then i else best) ≤ load i := by
      split
      · exact le_rfl
      · omega
    refine ⟨?_, le_trans hval hvb, ?_⟩
    · rcases hpos with h | h
      · rw [h]
        split
        · right
          omega
        · left
          rfl
      · right
        omega
    · intro c h1 h2
      by_cases hci : c = i
      · subst hci
        exact le_trans hval hvi
      · exact hcov c (by omega) (by omega)

theorem max_cpu_from_spec (load : Nat → Int) :
    ∀ fuel i best,
      (max_cpu_from load i fuel best = best ∨
        (i ≤ max_cpu_from load i fuel best ∧ max_cpu_from load i fuel best < i + fuel)) ∧
      load best ≤ load (max_cpu_from load i fuel best) ∧
      ∀ c, i ≤ c → c < i + fuel → load c ≤ load (max_cpu_from load i fuel best) := by
  intro fuel
  induction fuel with
  | zero =>
    intro i best
    exact ⟨Or.inl rfl, le_rfl, fun c h1 h2 => by omega⟩
  | succ n ih =>
    intro i best
    simp only [max_cpu_from]
    obtain ⟨hpos, hval, hcov⟩ := ih (i + 1) (if load best < load i then i else best)
    have hvb : load best ≤ load (if load best < load i then i else best) := by
      split
      · omega
      · exact le_rfl
    have hvi : load i ≤ load (if load best < load i then i else best) := by
      split
      · exact le_rfl
      · omega
    refine ⟨?_, le_trans hvb hval, ?_⟩
    · rcases hpos with h | h
      · rw [h]
        split
        · right
          omega
        · left
          rfl
      · right
        omega
    · intro c h1 h2
      by_cases hci : c = i
      · subst hci
        exact le_trans hvi hval
      · exact hcov c (by omega) (by omega)

/-- The max scan keeps the base candidate when nothing strictly beats it. -/
theorem max_cpu_from_eq_base (load : Nat → Int) :
    ∀ fuel i best, (∀ c, i ≤ c → c < i + fuel → ¬load best < load c) →
      max_cpu_from load i fuel best = best := by
  intro fuel
  induction fuel with
  | zero => intro i best _; rfl
  | succ n ih =>
    intro i best h
    simp only [max_cpu_from]
    rw [if_neg (h i le_rfl (by omega))]
    exact ih (i + 1) best fun c h1 h2 => h c (by omega) (by omega)

theorem findIdx_exists (p : sc_thread_t → Bool) (ts : List sc_thread_t)
    (h : ∃ t ∈ ts, p t = true) :
    ∃ i, ts.findIdx? p = some i ∧ ∃ hi : i < ts.length, p ts[i] = true := by
  induction ts with
  | nil => simp at h
  | cons hd tl ih =>
    by_cases hp : p hd = true
    · exact ⟨0, by simp [List.findIdx?_cons, hp], by simp, hp⟩
    · have h2 : ∃ t ∈ tl, p t = true := by
        obtain ⟨t, ht, hpt⟩ := h
        rcases List.mem_cons.mp ht with hh | htl
        · exact absurd (hh ▸ hpt) hp
        · exact ⟨t, htl, hpt⟩
      obtain ⟨i, hfi, hi, hpi⟩ := ih h2
      refine ⟨i + 1, ?_, by simpa using hi, by simpa using hpi⟩
      simp [List.findIdx?_cons, hp, hfi]

theorem countP_set (ts : List sc_thread_t) (j : Nat) (v : sc_thread_t)
    (p : sc_thread_t → Bool) (h : j < ts.length) :
    (ts.set j v).countP p + (if p (ts.getD j default) then 1 else 0) =
      ts.countP p + (if p v then 1 else 0) := by
  induction ts generalizing j with
  | nil => simp at h
  | cons hd tl ih =>
    cases j with
    | zero =>
      simp only [List.set, List.countP_cons, List.getD_cons_zero]
      omega
    | succ n =>
      have hn : n < tl.length := by simpa using h
      have := ih n hn
      simp only [List.set, List.countP_cons, List.getD_cons_succ]
      omega

/-- Position bounds for the code's min-CPU selector. -/
theorem lb_min_cpu_lt (st : SchedState) (h : 1 ≤ st.sc_cpu_count) :
    lb_min_cpu st < st.sc_cpu_count := by
  obtain ⟨hpos, -, -⟩ := min_cpu_from_spec st.sc_cpu_load (st.sc_cpu_count - 1) 1 0
  unfold lb_min_cpu
  rcases hpos with h0 | h1
  · rw [h0]
    omega
  · omega

theorem lb_max_cpu_lt (st : SchedState) (h : 1 ≤ st.sc_cpu_count) :
    lb_max_cpu st < st.sc_cpu_count := by
  obtain ⟨hpos, -, -⟩ := max_cpu_from_spec st.sc_cpu_load (st.sc_cpu_count - 1) 1 0
  unfold lb_max_cpu
  rcases hpos with h0 | h1
  · rw [h0]
    omega
  · omega

/-- The min-CPU selector's load is a lower bound on every CPU's load. -/
theorem lb_min_le (st : SchedState) (c : Nat) (hc : c < st.sc_cpu_count) :
    st.sc_cpu_load (lb_min_cpu st) ≤ st.sc_cpu_load c := by
  obtain ⟨-, hval, hcov⟩ := min_cpu_from_spec st.sc_cpu_load (st.sc_cpu_count - 1) 1 0
  unfold lb_min_cpu
  rcases Nat.eq_zero_or_pos c with h0 | h1
  · subst h0
    exact hval
  · exact hcov c h1 (by omega)

/-- The max-CPU selector's load is an upper bound on every CPU's load. -/
theorem lb_max_ge (st : SchedState) (c : Nat) (hc : c < st.sc_cpu_count) :
    st.sc_cpu_load c ≤ st.sc_cpu_load (lb_max_cpu st) := by
  obtain ⟨-, hval, hcov⟩ := max_cpu_from_spec st.sc_cpu_load (st.sc_cpu_count - 1) 1 0
  unfold lb_max_cpu
  rcases Nat.eq_zero_or_pos c with h0 | h1
  · subst h0
    exact hval
  · exact hcov c h1 (by omega)

/-- With at most one CPU the two selectors agree, so the gap is zero. -/
theorem two_le_count_of_gap (st : SchedState) (hgap : 1 < cpu_gap st) :
    2 ≤ st.sc_cpu_count := by
  by_contra h
  have h1 : st.sc_cpu_count - 1 = 0 := by omega
  rw [cpu_gap, lb_min_cpu, lb_max_cpu, h1] at hgap
  simp only [min_cpu_from, max_cpu_from] at hgap
  omega

/-- `load_balance` is the identity when the load gap is at most 1. -/
theorem load_balance_fixed (st : SchedState) (h : cpu_gap st ≤ 1) :
    load_balance st = st := by
  unfold cpu_gap at h
  simp only [load_balance]
  rw [if_pos h]

/-- Dispatch: gap above 1 but no READY thread on the max CPU — no change. -/
theorem load_balance_none_eq (st : SchedState)
    (hgap : ¬st.sc_cpu_load (lb_max_cpu st) - st.sc_cpu_load (lb_min_cpu st) ≤ 1)
    (hfi : st.sc_threads.findIdx?
        (fun t => decide (t.state = .THREAD_READY ∧ t.cpu_id = lb_max_cpu st)) = none) :
    load_balance st = st := by
  simp only [load_balance]
  rw [if_neg hgap, hfi]

/-- Dispatch: gap above 1 and a READY thread found on the max CPU — migrate it. -/
theorem load_balance_migrate_eq (st : SchedState) (i : Nat)
    (hgap : ¬st.sc_cpu_load (lb_max_cpu st) - st.sc_cpu_load (lb_min_cpu st) ≤ 1)
    (hfi : st.sc_threads.findIdx?
        (fun t => decide (t.state = .THREAD_READY ∧ t.cpu_id = lb_max_cpu st)) = some i) :
    load_balance st =
      { st with
          sc_threads := upd_thread st.sc_threads i
            (fun t => { t with cpu_id := lb_min_cpu st }),
          sc_cpu_load := fun c =>
            if c = lb_max_cpu st then st.sc_cpu_load (lb_max_cpu st) - 1
            else if c = lb_min_cpu st then st.sc_cpu_load (lb_min_cpu st) + 1
            else st.sc_cpu_load c } := by
  simp only [load_balance]
  rw [if_neg hgap, hfi]

/-- When the gap exceeds 1 and some READY thread sits on the max-load CPU,
`load_balance` migrates exactly one such thread (the first in table order)
to the min-load CPU, adjusting exactly the two counters. -/
theorem lb_migrate_spec (st : SchedState) (hgap : 1 < cpu_gap st)
    (hex : ∃ t ∈ st.sc_threads,
      t.state = thread_state_t.THREAD_READY ∧ t.cpu_id = lb_max_cpu st) :
    ∃ i, ∃ hi : i < st.sc_threads.length,
      (st.sc_threads.get ⟨i, hi⟩).state = thread_state_t.THREAD_READY ∧
      (st.sc_threads.get ⟨i, hi⟩).cpu_id = lb_max_cpu st ∧
      load_balance st =
        { st with
            sc_threads := upd_thread st.sc_threads i
              (fun t => { t with cpu_id := lb_min_cpu st }),
            sc_cpu_load := fun c =>
              if c = lb_max_cpu st then st.sc_cpu_load (lb_max_cpu st) - 1
              else if c = lb_min_cpu st then st.sc_cpu_load (lb_min_cpu st) + 1
              else st.sc_cpu_load c } := by
  have hgap2 : ¬st.sc_cpu_load (lb_max_cpu st) - st.sc_cpu_load (lb_min_cpu st) ≤ 1 := by
    unfold cpu_gap at hgap
    omega
  have hex2 : ∃ t ∈ st.sc_threads,
      (fun t => decide (t.state = thread_state_t.THREAD_READY ∧
        t.cpu_id = lb_max_cpu st)) t = true := by
    obtain ⟨t, ht, h1, h2⟩ := hex
    exact ⟨t, ht, by simp [h1, h2]⟩
  obtain ⟨i, hfi, hi, hpi⟩ := findIdx_exists _ _ hex2
  simp only [decide_eq_true_eq] at hpi
  refine ⟨i, hi, ?_, ?_, load_balance_migrate_eq st i hgap2 hfi⟩
  · simpa [List.get_eq_getElem] using hpi.1
  · simpa [List.get_eq_getElem] using hpi.2

/-- If every CPU load lies in `[lo, hi]`, the gap is at most `hi - lo`. -/
theorem gap_le_of_bounds (st : SchedState) (lo hi : Int)
    (h1 : 1 ≤ st.sc_cpu_count)
    (hub : ∀ c, c < st.sc_cpu_count → st.sc_cpu_load c ≤ hi)
    (hlo : ∀ c, c < st.sc_cpu_count → lo ≤ st.sc_cpu_load c) :
    cpu_gap st ≤ hi - lo := by
  have hma := lb_max_cpu_lt st h1
  have hmi := lb_min_cpu_lt st h1
  have h2 := hub _ hma
  have h3 := hlo _ hmi
  unfold cpu_gap
  omega

/-- A single `load_balance` call never increases the load gap. -/
theorem lb_gap_mono (st : SchedState) : cpu_gap (load_balance st) ≤ cpu_gap st := by
  by_cases hgap : cpu_gap st ≤ 1
  · rw [load_balance_fixed st hgap]
  · have hgap1 : 1 < cpu_gap st := by omega
    have hcount : 2 ≤ st.sc_cpu_count := two_le_count_of_gap st hgap1
    have hgap2 : ¬st.sc_cpu_load (lb_max_cpu st) - st.sc_cpu_load (lb_min_cpu st) ≤ 1 := by
      unfold cpu_gap at hgap
      omega
    cases hfi : st.sc_threads.findIdx?
        (fun t => decide (t.state = thread_state_t.THREAD_READY ∧
          t.cpu_id = lb_max_cpu st)) with
    | none => rw [load_balance_none_eq st hgap2 hfi]
    | some i =>
      rw [load_balance_migrate_eq st i hgap2 hfi]
      refine le_trans (gap_le_of_bounds _ (st.sc_cpu_load (lb_min_cpu st))
        (st.sc_cpu_load (lb_max_cpu st)) ?_ ?_ ?_) ?_
      · dsimp only
        omega
      · intro c hc
        dsimp only at hc ⊢
        split
        · omega
        · split
          · omega
          · exact lb_max_ge st c hc
      · intro c hc
        dsimp only at hc ⊢
        split
        · omega
        · split
          · omega
          · exact lb_min_le st c hc
      · unfold cpu_gap
        omega

/-- Invariant driving convergence from an all-on-CPU-0 skew: loads match
the tables, every thread is READY, the loads of CPUs `1..` are mutually
within 1, and CPU 0's load dominates all of them. -/
def lbGood (st : SchedState) : Prop :=
  loads_consistent st ∧
  (∀ t ∈ st.sc_threads, t.state = thread_state_t.THREAD_READY) ∧
  (∀ c d, 1 ≤ c → c < st.sc_cpu_count → 1 ≤ d → d < st.sc_cpu_count →
    st.sc_cpu_load c ≤ st.sc_cpu_load d + 1) ∧
  (∀ c, c < st.sc_cpu_count → st.sc_cpu_load c ≤ st.sc_cpu_load 0)

theorem lbGood_migrate (st : SchedState) (i mi : Nat) (hi : i < st.sc_threads.length)
    (hg : lbGood st)
    (holdc : (st.sc_threads.getD i default).cpu_id = 0)
    (hmi1 : 1 ≤ mi) (hmic : mi < st.sc_cpu_count) (hc2 : 2 ≤ st.sc_cpu_count)
    (hmin : ∀ c, c < st.sc_cpu_count → st.sc_cpu_load mi ≤ st.sc_cpu_load c)
    (hgapv : st.sc_cpu_load mi + 2 ≤ st.sc_cpu_load 0) :
    lbGood { st with
        sc_threads := upd_thread st.sc_threads i (fun t => { t with cpu_id := mi }),
        sc_cpu_load := fun c =>
          if c = 0 then st.sc_cpu_load 0 - 1
          else if c = mi then st.sc_cpu_load mi + 1
          else st.sc_cpu_load c } := by
  obtain ⟨hcons, hready, hspread, hdom⟩ := hg
  have hmem : st.sc_threads.getD i default ∈ st.sc_threads := by
    rw [List.getD_eq_getElem _ _ hi]
    exact List.getElem_mem hi
  have holds : (st.sc_threads.getD i default).state = thread_state_t.THREAD_READY :=
    hready _ hmem
  have hupd : upd_thread st.sc_threads i (fun t => { t with cpu_id := mi })
      = st.sc_threads.set i { st.sc_threads.getD i default with cpu_id := mi } := rfl
  have hRD : thread_state_t.THREAD_READY ≠ thread_state_t.THREAD_DONE := by decide
  refine ⟨?_, ?_, ?_, ?_⟩
  · intro c hc
    dsimp only at hc ⊢
    rw [hupd]
    simp only [holds, holdc, hRD, decide_eq_true_eq, ne_eq, not_false_eq_true,
      true_and]
    have h1 := countP_set st.sc_threads i
      { st.sc_threads.getD i default with cpu_id := mi }
      (fun t => decide (t.state ≠ thread_state_t.THREAD_DONE ∧ t.cpu_id = c)) hi
    simp only [holds, holdc, hRD, decide_eq_true_eq, ne_eq, not_false_eq_true,
      true_and] at h1
    by_cases hc0 : c = 0
    · rw [if_pos hc0]
      have hm0 : ¬(mi = c) := by omega
      rw [if_pos hc0.symm, if_neg hm0] at h1
      rw [hc0] at h1 ⊢
      have e0 := hcons 0 (by omega)
      simp only [ne_eq] at e0
      omega
    · by_cases hcmi : c = mi
      · rw [if_neg hc0, if_pos hcmi]
        rw [if_neg (fun h => hc0 h.symm), if_pos hcmi.symm] at h1
        have e2 := hcons c hc
        simp only [ne_eq] at e2
        have hLc : st.sc_cpu_load c = st.sc_cpu_load mi := by rw [hcmi]
        omega
      · rw [if_neg hc0, if_neg hcmi]
        rw [if_neg (fun h => hc0 h.symm), if_neg (fun h => hcmi h.symm)] at h1
        have e2 := hcons c hc
        simp only [ne_eq] at e2
        omega
  · intro t ht
    dsimp only at ht
    rw [hupd] at ht
    rcases List.mem_or_eq_of_mem_set ht with h | h
    · exact hready t h
    · rw [h]
      exact holds
  · intro c d hc1 hcc hd1 hdc
    dsimp only at hcc hdc ⊢
    have hc0 : ¬(c = 0) := by omega
    have hd0 : ¬(d = 0) := by omega
    rw [if_neg hc0, if_neg hd0]
    by_cases hcmi : c = mi <;> by_cases hdmi : d = mi
    · rw [if_pos hcmi, if_pos hdmi]
      omega
    · rw [if_pos hcmi, if_neg hdmi]
      have h1 := hmin d hdc
      omega
    · rw [if_neg hcmi, if_pos hdmi]
      have h1 := hspread c mi hc1 hcc hmi1 hmic
      have h2 : st.sc_cpu_load d = st.sc_cpu_load mi := by rw [hdmi]
      omega
    · rw [if_neg hcmi, if_neg hdmi]
      exact hspread c d hc1 hcc hd1 hdc
  · intro c hc
    dsimp only at hc ⊢
    by_cases hc0 : c = 0
    · rw [if_pos hc0, if_pos (rfl : (0:Nat) = 0)]
    · rw [if_pos (rfl : (0:Nat) = 0), if_neg hc0]
      have hcge : 1 ≤ c := by omega
      by_cases hcmi : c = mi
      · rw [if_pos hcmi]
        omega
      · rw [if_neg hcmi]
        have h1 := hspread c mi hcge hc hmi1 hmic
        omega

/-- One balancing step under the invariant with gap above 1: the invariant
is preserved and CPU 0's load drops by exactly one. -/
theorem c6_step (st : SchedState) (hg : lbGood st) (hgap : 1 < cpu_gap st) :
    lbGood (load_balance st) ∧
    (load_balance st).sc_cpu_load 0 = st.sc_cpu_load 0 - 1 ∧
    (load_balance st).sc_cpu_count = st.sc_cpu_count := by
  obtain ⟨hcons, hready, hspread, hdom⟩ := hg
  have hcount : 2 ≤ st.sc_cpu_count := two_le_count_of_gap st hgap
  have hma : lb_max_cpu st = 0 := by
    unfold lb_max_cpu
    refine max_cpu_from_eq_base st.sc_cpu_load (st.sc_cpu_count - 1) 1 0 ?_
    intro c h1 h2
    exact not_lt.mpr (hdom c (by omega))
  have hmilt : lb_min_cpu st < st.sc_cpu_count := lb_min_cpu_lt st (by omega)
  have hgap2 : 1 < st.sc_cpu_load 0 - st.sc_cpu_load (lb_min_cpu st) := by
    unfold cpu_gap at hgap
    rw [hma] at hgap
    exact hgap
  have hmi1 : 1 ≤ lb_min_cpu st := by
    by_contra h
    have h0 : lb_min_cpu st = 0 := by omega
    rw [h0] at hgap2
    omega
  have hminn : (0:Int) ≤ st.sc_cpu_load (lb_min_cpu st) := by
    rw [hcons _ hmilt]
    exact Int.natCast_nonneg _
  have h0cons := hcons 0 (by omega)
  have hpos : 0 < st.sc_threads.countP
      (fun t => decide (t.state ≠ thread_state_t.THREAD_DONE ∧ t.cpu_id = 0)) := by
    omega
  obtain ⟨t, ht, hpt⟩ := List.countP_pos_iff.mp hpos
  simp only [decide_eq_true_eq] at hpt
  have hex : ∃ t ∈ st.sc_threads,
      t.state = thread_state_t.THREAD_READY ∧ t.cpu_id = lb_max_cpu st :=
    ⟨t, ht, hready t ht, by rw [hma]; exact hpt.2⟩
  obtain ⟨i, hi, hir, hic, heq⟩ := lb_migrate_spec st hgap hex
  rw [hma] at heq hic
  have holdc : (st.sc_threads.getD i default).cpu_id = 0 := by
    rw [List.getD_eq_getElem _ _ hi]
    rw [List.get_eq_getElem] at hic
    exact hic
  rw [heq]
  refine ⟨lbGood_migrate st i (lb_min_cpu st) hi ⟨hcons, hready, hspread, hdom⟩
    holdc hmi1 hmilt hcount (fun c hc => lb_min_le st c hc) (by omega), ?_, rfl⟩
  dsimp only
  rw [if_pos (rfl : (0:Nat) = 0)]

/-- Under the invariant, the gap falls to at most 1 within `load 0` calls. -/
theorem c6_converge : ∀ (n : Nat) (st : SchedState), lbGood st → 1 ≤ st.sc_cpu_count →
    st.sc_cpu_load 0 ≤ (n : Int) → cpu_gap (load_balance^[n] st) ≤ 1 := by
  intro n
  induction n with
  | zero =>
    intro st hg h1 h0
    obtain ⟨hcons, -, -, hdom⟩ := hg
    have hma := lb_max_cpu_lt st h1
    have hmi := lb_min_cpu_lt st h1
    have e1 := hcons _ hma
    have e2 := hcons _ hmi
    have e0 := hcons 0 (by omega)
    have d1 := hdom _ hma
    have d2 := hdom _ hmi
    simp only [Function.iterate_zero, id_eq]
    unfold cpu_gap
    omega
  | succ n ih =>
    intro st hg h1 h0
    by_cases hgap : cpu_gap st ≤ 1
    · rw [Function.iterate_fixed (load_balance_fixed st hgap) (n + 1)]
      exact hgap
    · have hgap1 : 1 < cpu_gap st := by omega
      obtain ⟨hg2, hl0, hcnt⟩ := c6_step st hg hgap1
      rw [Function.iterate_succ_apply]
      refine ih (load_balance st) hg2 (by omega) ?_
      rw [hl0]
      omega

/-- C6: `load_balance` is the identity when the max/min CPU-load gap is at
most 1; when the gap exceeds 1 and some READY thread sits on the max-load
CPU, it migrates exactly one such thread (the first in table order) to the
min-load CPU, reassigning its `cpu_id` and adjusting exactly the two load
counters (at most one migration per call); no call ever increases the gap;
and starting from loads consistent with every thread READY on CPU 0,
repeated calls bring the gap to at most 1 within thread-count calls. -/
theorem claim_C6 :
    (∀ st : SchedState, cpu_gap st ≤ 1 → load_balance st = st) ∧
    (∀ st : SchedState, 1 < cpu_gap st →
      (∃ t ∈ st.sc_threads,
        t.state = thread_state_t.THREAD_READY ∧ t.cpu_id = lb_max_cpu st) →
      ∃ i, ∃ hi : i < st.sc_threads.length,
        (st.sc_threads.get ⟨i, hi⟩).state = thread_state_t.THREAD_READY ∧
        (st.sc_threads.get ⟨i, hi⟩).cpu_id = lb_max_cpu st ∧
        load_balance st =
          { st with
              sc_threads := upd_thread st.sc_threads i
                (fun t => { t with cpu_id := lb_min_cpu st }),
              sc_cpu_load := fun c =>
                if c = lb_max_cpu st then st.sc_cpu_load (lb_max_cpu st) - 1
                else if c = lb_min_cpu st then st.sc_cpu_load (lb_min_cpu st) + 1
                else st.sc_cpu_load c }) ∧
    (∀ st : SchedState, cpu_gap (load_balance st) ≤ cpu_gap st) ∧
    (∀ st : SchedState, loads_consistent st →
      (∀ t ∈ st.sc_threads, t.state = thread_state_t.THREAD_READY) →
      (∀ t ∈ st.sc_threads, t.cpu_id = 0) →
      1 ≤ st.sc_cpu_count →
      cpu_gap (load_balance^[st.sc_threads.length] st) ≤ 1) := by
  refine ⟨load_balance_fixed, lb_migrate_spec, lb_gap_mono, ?_⟩
  intro st hcons hready hcpu0 h1
  have hzero : ∀ c, 1 ≤ c → c < st.sc_cpu_count → st.sc_cpu_load c = 0 := by
    intro c h1c h2c
    rw [hcons c h2c]
    have hz : st.sc_threads.countP
        (fun t => decide (t.state ≠ thread_state_t.THREAD_DONE ∧ t.cpu_id = c)) = 0 := by
      rw [List.countP_eq_zero]
      intro t ht
      simp only [decide_eq_true_eq, not_and]
      intro _
      rw [hcpu0 t ht]
      omega
    rw [hz]
    rfl
  have hspread : ∀ c d, 1 ≤ c → c < st.sc_cpu_count → 1 ≤ d → d < st.sc_cpu_count →
      st.sc_cpu_load c ≤ st.sc_cpu_load d + 1 := by
    intro c d hc1 hcc hd1 hdc
    rw [hzero c hc1 hcc, hzero d hd1 hdc]
    omega
  have hdom : ∀ c, c < st.sc_cpu_count → st.sc_cpu_load c ≤ st.sc_cpu_load 0 := by
    intro c hcc
    by_cases hc0 : c = 0
    · simp [hc0]
    · rw [hzero c (by omega) hcc, hcons 0 (by omega)]
      exact Int.natCast_nonneg _
  refine c6_converge st.sc_threads.length st ⟨hcons, hready, hspread, hdom⟩ h1 ?_
  rw [hcons 0 (by omega)]
  exact_mod_cast List.countP_le_length _

/-- A maximally skewed demo state: 8 READY threads, all on CPU 0, 4 CPUs. -/
def lbDemo : SchedState :=
  { sc_threads := List.replicate 8
      ⟨0, 0, 1, 1, fun _ => SliceAct.completes, 0, thread_state_t.THREAD_READY, 0⟩,
    sc_run_queue := [],
    sc_cpu_load := fun c => if c = 0 then 8 else 0,
    sc_cpu_count := 4,
    sc_current_thread := none }

/-- Witness for C6 on the skewed demo state. -/
theorem claim_C6_witness :
    loads_consistent lbDemo ∧
    (∀ t ∈ lbDemo.sc_threads, t.state = thread_state_t.THREAD_READY) ∧
    (∀ t ∈ lbDemo.sc_threads, t.cpu_id = 0) ∧
    1 ≤ lbDemo.sc_cpu_count ∧
    cpu_gap (load_balance^[lbDemo.sc_threads.length] lbDemo) ≤ 1 := by
  have h1 : loads_consistent lbDemo := by
    intro c hc
    have hc4 : c < 4 := hc
    interval_cases c <;> rfl
  have h2 : ∀ t ∈ lbDemo.sc_threads, t.state = thread_state_t.THREAD_READY := by
    intro t ht
    simp only [lbDemo, List.mem_replicate] at ht
    rw [ht.2]
  have h3 : ∀ t ∈ lbDemo.sc_threads, t.cpu_id = 0 := by
    intro t ht
    simp only [lbDemo, List.mem_replicate] at ht
    rw [ht.2]
  have h4 : 1 ≤ lbDemo.sc_cpu_count := by decide
  exact ⟨h1, h2, h3, h4, claim_C6.2.2.2 lbDemo h1 h2 h3 h4⟩

end OS
